import Mathlib

/-!
# PicoTempExport: the exporter cache and the Pico W temperature server

A shallow embedding of `exporter/picotempexport.go` (the Prometheus exporter with
its two-second cache) and of `picoserver/main.go` (the embedded HTTP responder and
its LED indicator), followed by the properties proved about them.

Conventions of the embedding:

* `time.Time` is an integer count of nanoseconds on one time line, a
  `time.Duration` likewise (`2 * time.Second = 2000000000`);
* a Go `float64` is an IEEE-754 binary64 datum, `Float64` below, and the
  arithmetic operators round to nearest, ties to even;
* `client.Get` is the environment: its result (`HttpResult`) is an input;
* `encoding/json` is modelled on parsed JSON documents (`JValue`): what
  `Decoder.Decode` does to a `tempValues` and what `Marshal` prints for a `temp`;
* the buffered channel `blink` is its queue of pending values.
-/

namespace PicoTempExport

/-! ## float64 -/

/-- A Go `float64`: a finite value `(-1)^neg * mant * 2^exp`, an infinity, or NaN.
Finite values are kept in the IEEE normal form: `mant < 2^53`, `-1074 ≤ exp ≤ 971`,
and `2^52 ≤ mant` unless `exp = -1074` (zero and the subnormals). -/
inductive Float64 where
  | fin (neg : Bool) (mant : Nat) (exp : Int)
  | inf (neg : Bool)
  | nan
deriving DecidableEq, Repr

namespace Float64

/-- The constant `0` (positive zero). -/
def zero : Float64 := .fin false 0 (-1074)

/-- The constant `1`. -/
def one : Float64 := .fin false (2 ^ 52) (-52)

/-- The well-formedness of a finite datum (the IEEE normal form). -/
def WellFormed : Float64 → Prop
  | .fin _ m e => m < 2 ^ 53 ∧ -1074 ≤ e ∧ e ≤ 971 ∧ (2 ^ 52 ≤ m ∨ e = -1074)
  | _ => True

/-- The rational value of a finite datum (`0` for the others). -/
def toRat : Float64 → ℚ
  | .fin neg m e => (if neg then -1 else 1) * (m : ℚ) * (2 : ℚ) ^ e
  | _ => 0

/-- Is the datum finite. -/
def isFinite : Float64 → Bool
  | .fin _ _ _ => true
  | _ => false

/-- Whether `2 ^ e ≤ n / d`, on integers. -/
def pow2Le (e : Int) (n d : Nat) : Bool :=
  if 0 ≤ e then decide (d * 2 ^ e.toNat ≤ n) else decide (d ≤ n * 2 ^ (-e).toNat)

/-- The number of halvings that bring `n` below `2`, at most `fuel` of them. -/
def log2Fuel : Nat → Nat → Nat
  | 0, _ => 0
  | fuel + 1, n => if n < 2 then 0 else log2Fuel fuel (n / 2) + 1

/-- The integer `⌊log₂ n⌋` for `0 < n` (the position of the leading bit). -/
def log2 (n : Nat) : Nat := log2Fuel n n

/-- The integer `⌊log₂ (n / d)⌋` for `0 < n` and `0 < d`. -/
def floorLog2 (n d : Nat) : Int :=
  let e0 : Int := (log2 n : Int) - (log2 d : Int)
  if pow2Le e0 n d then e0 else e0 - 1

/-- Division of `n` by `d` rounded to the nearest integer, ties to even. -/
def divRoundEven (n d : Nat) : Nat :=
  let q := n / d
  let r := n % d
  if 2 * r < d then q
  else if d < 2 * r then q + 1
  else if q % 2 = 0 then q else q + 1

/-- The multiple of `2^ulp` nearest to `(-1)^neg * n / d`, ties to even, as a float64
(renormalised when the mantissa reaches `2^53`); an infinity when the exponent
exceeds that of the largest finite float64. -/
def roundAt (neg : Bool) (n d : Nat) (ulp : Int) : Float64 :=
  let num := if ulp ≤ 0 then n * 2 ^ (-ulp).toNat else n
  let den := if ulp ≤ 0 then d else d * 2 ^ ulp.toNat
  let q := divRoundEven num den
  let m := if q = 2 ^ 53 then 2 ^ 52 else q
  let x := if q = 2 ^ 53 then ulp + 1 else ulp
  if 971 < x then .inf neg else .fin neg m x

/-- The float64 nearest to `(-1)^neg * n / d` (`0 < d`), ties to even; an infinity
when the rounded value exceeds the largest finite float64. The unit in the last
place is `2^(e - 52)` for a value in `[2^e, 2^(e+1))`, and `2^(-1074)` below
`2^(-1022)` (the subnormals). -/
def round (neg : Bool) (n d : Nat) : Float64 :=
  if n = 0 then .fin neg 0 (-1074)
  else roundAt neg n d (max (floorLog2 n d) (-1022) - 52)

/-- The float64 nearest to `(-1)^neg * n / d * 2^e`. -/
def roundScaled (neg : Bool) (n d : Nat) (e : Int) : Float64 :=
  if 0 ≤ e then round neg (n * 2 ^ e.toNat) d else round neg n (d * 2 ^ (-e).toNat)

/-- The conversion `float64(i)` of an integer. -/
def ofInt (i : Int) : Float64 := round (decide (i < 0)) i.natAbs 1

/-- The operator `*` on float64. -/
def mul : Float64 → Float64 → Float64
  | .nan, _ => .nan
  | _, .nan => .nan
  | .inf a, .inf b => .inf (xor a b)
  | .inf a, .fin b m _ => if m = 0 then .nan else .inf (xor a b)
  | .fin a m _, .inf b => if m = 0 then .nan else .inf (xor a b)
  | .fin a ma ea, .fin b mb eb => roundScaled (xor a b) (ma * mb) 1 (ea + eb)

/-- The operator `/` on float64. -/
def div : Float64 → Float64 → Float64
  | .nan, _ => .nan
  | _, .nan => .nan
  | .inf _, .inf _ => .nan
  | .inf a, .fin b _ _ => .inf (xor a b)
  | .fin a _ _, .inf b => .fin (xor a b) 0 (-1074)
  | .fin a ma ea, .fin b mb eb =>
    if mb = 0 then (if ma = 0 then .nan else .inf (xor a b))
    else roundScaled (xor a b) ma mb (ea - eb)

/-- The operator `+` on float64. -/
def add : Float64 → Float64 → Float64
  | .nan, _ => .nan
  | _, .nan => .nan
  | .inf a, .inf b => if a = b then .inf a else .nan
  | .inf a, .fin _ _ _ => .inf a
  | .fin _ _ _, .inf b => .inf b
  | .fin a ma ea, .fin b mb eb =>
    let e := min ea eb
    let x : Int := (if a then -1 else 1) * ((ma * 2 ^ (ea - e).toNat : Nat) : Int)
    let y : Int := (if b then -1 else 1) * ((mb * 2 ^ (eb - e).toNat : Nat) : Int)
    let s := x + y
    if s = 0 then .fin (a && b) 0 (-1074)
    else roundScaled (decide (s < 0)) s.natAbs 1 e

end Float64

/-! ## encoding/json documents and the HTTP exchange -/

/-- A JSON number literal: `(-1)^neg * digits * 10^exp10` (the integer and fraction
digits run together, the exponent adjusted for the fraction). -/
structure JNumber where
  neg : Bool
  digits : Nat
  exp10 : Int
deriving DecidableEq, Repr

/-- A parsed JSON document. -/
inductive JValue where
  | null
  | bool (b : Bool)
  | num (n : JNumber)
  | str (s : String)
  | arr (items : List JValue)
  | obj (members : List (String × JValue))

/-- What the reader of `response.Body` yields to the decoder: a JSON document, or
bytes from which no complete JSON value can be read (empty, cut short, not JSON). -/
inductive Body where
  | malformed
  | json (v : JValue)

/-- The `*http.Response` fields the exporter reads. -/
structure Response where
  StatusCode : Int
  body : Body

/-- The result of `client.Get(url)`: a transport error or a response. -/
inductive HttpResult where
  | transportError
  | response (r : Response)

/-- An `*http.Client`, as far as the exporter uses it: what `Get` returns for a URL
at the moment of the call. -/
abbrev Client := String → HttpResult

/-- The constant `http.StatusOK`. -/
def StatusOK : Int := 200

/-- The errors `getTempValues` returns: the transport error of `client.Get`, an
error wrapping `errInvalidResponse` (with the status), or the decoder's error. -/
inductive FetchError where
  | transport
  | errInvalidResponse (status : Int)
  | decode
deriving DecidableEq, Repr

/-- The conversion `strconv.ParseFloat(s, 64)` of a JSON number literal: the nearest
float64, or nothing when the value is out of range. -/
def parseFloat (x : JNumber) : Option Float64 :=
  match (if 0 ≤ x.exp10 then Float64.round x.neg (x.digits * 10 ^ x.exp10.toNat) 1
         else Float64.round x.neg x.digits (10 ^ (-x.exp10).toNat)) with
  | .fin s m e => some (.fin s m e)
  | _ => none

/-! ## exporter/picotempexport.go -/

/-- The struct `tempValues`: the Celsius and Fahrenheit values parsed from the JSON. -/
structure tempValues where
  TempC : Float64
  TempF : Float64
deriving DecidableEq, Repr

/-- The fields of `tempValues`. -/
inductive Field where
  | TempC
  | TempF
deriving DecidableEq, Repr

/-- The case folding of a key (ASCII letters; no other character folds to a letter
of `tempC` or `tempF`). -/
def foldName (key : String) : List Char := key.data.map Char.toLower

/-- The field of `tempValues` an object key selects: an exact match with the `json`
tag first, a case-insensitive match otherwise. -/
def lookupField (key : String) : Option Field :=
  if key = "tempC" then some .TempC
  else if key = "tempF" then some .TempF
  else if foldName key = foldName "tempC" then some .TempC
  else if foldName key = foldName "tempF" then some .TempF
  else none

/-- The decoding of a JSON value into a `float64` field: a number in range is stored,
`null` is skipped, anything else leaves the field and records a type error. -/
def decodeFloat (v : JValue) (old : Float64) : Float64 × Bool :=
  match v with
  | .null => (old, false)
  | .num n =>
    match parseFloat n with
    | some f => (f, false)
    | none => (old, true)
  | _ => (old, true)

/-- The decoding of the members of a JSON object into a `tempValues`, in order;
unknown keys are skipped, and the decoder goes on after a type error (the flag). -/
def decodeMembers : List (String × JValue) → tempValues → Bool → tempValues × Bool
  | [], tv, bad => (tv, bad)
  | (key, v) :: rest, tv, bad =>
    match lookupField key with
    | some .TempC =>
      let r := decodeFloat v tv.TempC
      decodeMembers rest { tv with TempC := r.1 } (bad || r.2)
    | some .TempF =>
      let r := decodeFloat v tv.TempF
      decodeMembers rest { tv with TempF := r.1 } (bad || r.2)
    | none => decodeMembers rest tv bad

/-- The call `json.NewDecoder(body).Decode(tv)`: the `tempValues` afterwards and
whether an error is returned. -/
def Decode (body : Body) (tv : tempValues) : tempValues × Bool :=
  match body with
  | .malformed => (tv, true)
  | .json .null => (tv, false)
  | .json (.obj members) => decodeMembers members tv false
  | .json _ => (tv, true)

/-- The method `getTempValues`: request the URL and parse the JSON payload into
`tv`. Returns `tv` afterwards and the error, if any. -/
def getTempValues (tv : tempValues) (client : Client) (url : String) :
    tempValues × Option FetchError :=
  match client url with
  | .transportError => (tv, some .transport)
  | .response response =>
    if response.StatusCode ≠ StatusOK then
      (tv, some (.errInvalidResponse response.StatusCode))
    else
      let r := Decode response.body tv
      if r.2 then (r.1, some .decode) else (r.1, none)

/-- The duration `time.Second`. -/
def Second : Int := 1000000000

/-- The struct `metrics`: the cached values, the `up` flag and the expiry time (a
`time.Time`, in nanoseconds); the embedded `sync.RWMutex` makes each method below
one atomic step. -/
structure metrics where
  results : tempValues
  up : Float64
  expire : Int
deriving DecidableEq, Repr

/-- The method `getMetrics`, run under the write lock. `now₁` is what `time.Now()`
returns at the expiry check and `now₂` what it returns after the fetch. Returns the
`metrics` afterwards and the number of `getTempValues` calls made. -/
def getMetrics (m : metrics) (client : Client) (url : String) (now₁ now₂ : Int) :
    metrics × Nat :=
  if now₁ < m.expire then (m, 0)
  else
    let m := { m with up := Float64.one }
    let r := getTempValues m.results client url
    let m :=
      match r.2 with
      | some _ => { m with up := Float64.zero, results := ⟨Float64.zero, Float64.zero⟩ }
      | none => { m with results := r.1 }
    ({ m with expire := now₂ + 2 * Second }, 1)

/-- The accessor `tempC`. -/
def tempC (m : metrics) : Float64 := m.results.TempC

/-- The accessor `tempF`. -/
def tempF (m : metrics) : Float64 := m.results.TempF

/-- The accessor `status`. -/
def status (m : metrics) : Float64 := m.up

/-- The `metrics` value `newMux` creates: `&metrics{results: &tempValues{}}`. -/
def newMetrics : metrics := ⟨⟨Float64.zero, Float64.zero⟩, Float64.zero, 0⟩

/-- One `getMetrics` call of a run: the state of the sensor's endpoint at the call
and the two clock readings. -/
structure Call where
  client : Client
  url : String
  now₁ : Int
  now₂ : Int

/-- A refresh attempt of a run: the clock readings of the call that made it. -/
structure Attempt where
  checked : Int
  fetched : Int
deriving DecidableEq, Repr

/-- A run of `getMetrics` calls, one after the other as the lock orders them:
the final `metrics` and the refresh attempts made, oldest first. -/
def run : metrics → List Call → metrics × List Attempt
  | m, [] => (m, [])
  | m, c :: rest =>
    let r := getMetrics m c.client c.url c.now₁ c.now₂
    let rr := run r.1 rest
    (rr.1, (if r.2 = 0 then [] else [⟨c.now₁, c.now₂⟩]) ++ rr.2)

/-! ## strconv.FormatFloat and json.Marshal of a float64 -/

namespace Float64

/-- The number of decimal digits of `n` (`0` for `0`), at most `fuel` of them. -/
def decLenFuel : Nat → Nat → Nat
  | 0, _ => 0
  | fuel + 1, n => if n = 0 then 0 else decLenFuel fuel (n / 10) + 1

/-- The number of decimal digits of `n`. -/
def decLen (n : Nat) : Nat := decLenFuel n n

/-- Whether `10 ^ e ≤ n / d`, on integers. -/
def pow10Le (e : Int) (n d : Nat) : Bool :=
  if 0 ≤ e then decide (d * 10 ^ e.toNat ≤ n) else decide (d ≤ n * 10 ^ (-e).toNat)

/-- The decimal point position of `n / d` (`0 < n`, `0 < d`): the `k` with
`10^(k-1) ≤ n / d < 10^k`. -/
def decPoint (n d : Nat) : Int :=
  let k0 : Int := (decLen n : Int) - (decLen d : Int)
  if pow10Le k0 n d then k0 + 1 else k0

/-- The candidate with `nd` significant digits for the shortest decimal of the
finite datum `x` of magnitude `n / d` and decimal point position `k`: among the two
`nd`-digit decimals `c * 10^(k - nd)` around `n / d`, one that parses back to `x`,
the nearer one (ties to even) when both do. -/
def shortestAt (x : Float64) (neg : Bool) (n d : Nat) (k : Int) (nd : Nat) : Option Nat :=
  let s : Int := (nd : Int) - k
  let num := if 0 ≤ s then n * 10 ^ s.toNat else n
  let den := if 0 ≤ s then d else d * 10 ^ (-s).toNat
  let lo := num / den
  let hi := lo + 1
  let okLo := decide (parseFloat ⟨neg, lo, -s⟩ = some x)
  let okHi := decide (parseFloat ⟨neg, hi, -s⟩ = some x)
  if okLo && okHi then some (divRoundEven num den)
  else if okLo then some lo
  else if okHi then some hi
  else none

/-- The search for the shortest decimal from `nd` digits on, `fuel` lengths tried:
the digits `c` and their number. -/
def shortestFrom (x : Float64) (neg : Bool) (n d : Nat) (k : Int) :
    Nat → Nat → Option (Nat × Nat)
  | 0, _ => none
  | fuel + 1, nd =>
    match shortestAt x neg n d k nd with
    | some c => some (c, nd)
    | none => shortestFrom x neg n d k fuel (nd + 1)

/-- The removal of trailing zeros from the digits `c` with `s` of them after the
decimal point. -/
def stripZeros : Nat → Nat → Int → Nat × Int
  | 0, c, s => (c, s)
  | fuel + 1, c, s => if c ≠ 0 ∧ c % 10 = 0 then stripZeros fuel (c / 10) (s - 1) else (c, s)

/-- The shortest decimal `c * 10^(-s)` that parses back to the finite non-zero datum
of magnitude `mant * 2^exp` (at most 17 digits are needed). -/
def shortest (neg : Bool) (mant : Nat) (exp : Int) : Nat × Int :=
  let n := if 0 ≤ exp then mant * 2 ^ exp.toNat else mant
  let d := if 0 ≤ exp then 1 else 2 ^ (-exp).toNat
  let k := decPoint n d
  match shortestFrom (.fin neg mant exp) neg n d k 17 1 with
  | some (c, nd) => stripZeros 17 c ((nd : Int) - k)
  | none => (0, 0)

/-- The format `'f'` of the decimal `c * 10^(-s)`. -/
def fmtF (c : Nat) (s : Int) : List Char :=
  if s ≤ 0 then Nat.toDigits 10 (c * 10 ^ (-s).toNat)
  else
    let frac := Nat.toDigits 10 (c % 10 ^ s.toNat)
    Nat.toDigits 10 (c / 10 ^ s.toNat) ++ '.' ::
      (List.replicate (s.toNat - frac.length) '0' ++ frac)

/-- The format `'e'` of the decimal `c * 10^(-s)` (`c` without trailing zeros), with
the exponent as `encoding/json` leaves it (`e-9` for `e-09`). -/
def fmtE (c : Nat) (s : Int) : List Char :=
  match Nat.toDigits 10 c with
  | [] => []
  | d0 :: ds =>
    let e : Int := (ds.length : Int) - s
    let mantissa := if ds = [] then [d0] else d0 :: '.' :: ds
    let digits := Nat.toDigits 10 e.natAbs
    let exponent :=
      if e < 0 then '-' :: digits
      else '+' :: (if e < 10 then '0' :: digits else digits)
    mantissa ++ 'e' :: exponent

/-- Whether `|x| < n / d` for a finite `x`. -/
def absLt (mant : Nat) (exp : Int) (n d : Nat) : Bool :=
  if 0 ≤ exp then decide (mant * 2 ^ exp.toNat * d < n)
  else decide (mant * d < n * 2 ^ (-exp).toNat)

/-- The float64 encoder of `encoding/json`: nothing for NaN and the infinities (an
`UnsupportedValueError`), else the shortest decimal that parses back to the value,
in the format `'f'`, or `'e'` when `|x| < 1e-6` or `|x| ≥ 1e21`. -/
def encode : Float64 → Option (List Char)
  | .nan => none
  | .inf _ => none
  | .fin neg mant exp =>
    let sign := if neg then ['-'] else []
    if mant = 0 then some (sign ++ ['0'])
    else
      let r := shortest neg mant exp
      let small :=
        match round false 1 (10 ^ 6) with
        | .fin _ m e => decide (mant * 2 ^ (exp - min exp e).toNat < m * 2 ^ (e - min exp e).toNat)
        | _ => false
      let large := !absLt mant exp (10 ^ 21) 1
      if small || large then some (sign ++ fmtE r.1 r.2)
      else some (sign ++ fmtF r.1 r.2)

end Float64

/-! ## picoserver/main.go -/

/-- The struct `temp`: the temperature in both units, as it goes to JSON. -/
structure temp where
  TempC : Float64
  TempF : Float64
deriving DecidableEq, Repr

/-- The function `getTemperature`; `curTemp` is what `machine.ReadTemperature()`
returns (an `int32`, in millidegrees Celsius). -/
def getTemperature (curTemp : Int) : temp :=
  { TempC := (Float64.ofInt curTemp).div (Float64.ofInt 1000)
    TempF := ((((Float64.ofInt curTemp).div (Float64.ofInt 1000)).mul (Float64.ofInt 9)).div
      (Float64.ofInt 5)).add (Float64.ofInt 32) }

/-- The call `json.Marshal(t)` for a `temp`: the object with the fields in
declaration order under their `json` tags, or nothing (an error) when a value
cannot be encoded. -/
def Marshal (t : temp) : Option String :=
  match Float64.encode t.TempC, Float64.encode t.TempF with
  | some c, some f =>
    some (String.mk ("\x7b\"tempC\":".data ++ c ++ ",\"tempF\":".data ++ f ++ "\x7d".data))
  | _, _ => none

/-- The function `HTTPHandler` for the sensor reading `curTemp`: the status code of
the response header and the body written after it. -/
def HTTPHandler (curTemp : Int) : Nat × String :=
  match Marshal (getTemperature curTemp) with
  | some body => (200, body)
  | none => (500, "")

/-- The size of the type `uint` on the Pico W (a 32-bit target). -/
def uintSize : Nat := 2 ^ 32

/-- The inner `for` loop of `blinkLED`, at most `fuel` iterations of it: from the
counter `i`, the last LED state and the states written so far, to the states
written when the loop is left; nothing when the fuel runs out first. -/
def blinkLoop : Nat → Nat → Nat → Bool → List Bool → Option (List Bool)
  | 0, _, _, _, _ => none
  | fuel + 1, n, i, lastLEDState, written =>
    if i < n then
      blinkLoop fuel n ((i + 1) % uintSize) (!lastLEDState) (written ++ [!lastLEDState])
    else some written

/-- The body of `blinkLED` for one value `n` received from the channel: the states
written to the LED by `changeLEDState`, in order, the closing `true` included. -/
def blinkLED (fuel : Nat) (n : Nat) : Option (List Bool) :=
  let n := if n = 0 then 5 else n
  (blinkLoop fuel n 0 true []).map (fun written => written ++ [true])

/-- A buffered channel of `uint`: the pending values, oldest first, and the
capacity. -/
structure Chan where
  buf : List Nat
  cap : Nat
deriving DecidableEq, Repr

/-- The channel `make(chan uint, 3)` of `main`. -/
def makeBlink : Chan := ⟨[], 3⟩

/-- The send statement `ch <- v`: the channel afterwards, or nothing when the buffer
is full and the sending goroutine blocks. -/
def Chan.send (ch : Chan) (v : Nat) : Option Chan :=
  if ch.buf.length < ch.cap then some { ch with buf := ch.buf ++ [v] } else none

/-- The receive operation `<-ch`: the oldest pending value and the channel
afterwards, or nothing when the buffer is empty and the receiver blocks. -/
def Chan.recv (ch : Chan) : Option (Nat × Chan) :=
  match ch.buf with
  | [] => none
  | v :: rest => some (v, { ch with buf := rest })

/-- Where the loop of `handleConnection` stands: at `listener.Accept()`, or at the
send `blink <- 5` after an exchange. -/
inductive Pc where
  | accept
  | emit
deriving DecidableEq, Repr

/-- What happens to an iteration of the accept loop before the send. -/
inductive Accepted where
  | acceptError
  | deadlineError
  | exchanged
deriving DecidableEq, Repr

/-- The goroutine `handleConnection` together with the channel it shares with
`blinkLED`. -/
structure Server where
  pc : Pc
  blink : Chan
deriving DecidableEq, Repr

/-- One step of the loop of `handleConnection`: from `accept`, an error goes back to
`accept` (`continue`) and an exchange goes on to the send; the send `blink <- 5`
goes back to `accept`. Nothing when the goroutine cannot take the step. -/
def handleConnection (s : Server) (a : Accepted) : Option Server :=
  match s.pc with
  | .accept =>
    match a with
    | .acceptError => some s
    | .deadlineError => some s
    | .exchanged => some { s with pc := .emit }
  | .emit => (s.blink.send 5).map (fun ch => { pc := .accept, blink := ch })

/-- A non-decreasing clock along a run that starts at time `t`. -/
def ClockOrdered : Int → List Call → Prop
  | _, [] => True
  | t, c :: rest => t ≤ c.now₁ ∧ c.now₁ ≤ c.now₂ ∧ ClockOrdered c.now₂ rest

instance ClockOrdered.instDecidable : (t : Int) → (calls : List Call) →
    Decidable (ClockOrdered t calls)
  | _, [] => isTrue trivial
  | t, c :: rest =>
    have := ClockOrdered.instDecidable c.now₂ rest
    inferInstanceAs (Decidable (t ≤ c.now₁ ∧ c.now₁ ≤ c.now₂ ∧ ClockOrdered c.now₂ rest))

/-! ## Sample inputs -/

/-- A client whose `Get` fails at the transport level. -/
def downClient : Client := fun _ => .transportError

/-- A client whose `Get` returns a response with the given status and body. -/
def respond (status : Int) (body : Body) : Client := fun _ => .response ⟨status, body⟩

/-- A healthy cache entry holding 20 °C / 68 °F that expires at time `10000000000`. -/
def warmMetrics : metrics := ⟨⟨Float64.ofInt 20, Float64.ofInt 68⟩, Float64.one, 10000000000⟩

/-- A body whose `tempC` is a number and whose `tempF` is a string: the decoder
stores the first field and then fails on the second. -/
def halfBody : Body :=
  .json (.obj [("tempC", .num ⟨false, 25, 0⟩), ("tempF", .str "warm")])

/-- The body the Pico W sends: an object with the two numbers, `tempC` first. -/
def wireBody (c f : JNumber) : Body :=
  .json (.obj [("tempC", .num c), ("tempF", .num f)])

/-- One scrape: the three gauge functions of `newMux` call `getMetrics` one after
the other, the first at time `t` on an expired cache; the sensor takes half a second
to answer. -/
def scrapeCalls (client : Client) (t : Int) : List Call :=
  [⟨client, "http://pico", t, t + 500000000⟩,
   ⟨client, "http://pico", t + 500000100, t + 500000100⟩,
   ⟨client, "http://pico", t + 500000200, t + 500000200⟩]

/-! ## Notions used to state the properties -/

/-- Whether a JSON object has a member whose key selects the field. -/
def mentions (field : Field) (members : List (String × JValue)) : Bool :=
  members.any (fun kv => decide (lookupField kv.1 = some field))

/-- The number a JSON value gives a `float64` field: the float64 of a number literal
in range, nothing for any other value. -/
def numberOf : JValue → Option Float64
  | .num n => parseFloat n
  | _ => none

/-- Whether a JSON value can stand in a `float64` field without a decoding error:
`null`, or a number in the float64 range (not a string, a boolean, an array, an
object or a number out of range). -/
def acceptable : JValue → Bool
  | .null => true
  | .num n => (parseFloat n).isSome
  | _ => false

/-- Whether every member of a JSON object whose key selects `tempC` or `tempF` holds
an acceptable value. -/
def validMembers (members : List (String × JValue)) : Bool :=
  members.all (fun kv => (lookupField kv.1).isNone || acceptable kv.2)

/-- The number a JSON object carries for a field: that of the last member that
selects the field and holds a number in range; nothing when there is no such
member. -/
def carried (field : Field) : List (String × JValue) → Option Float64
  | [] => none
  | (key, v) :: rest =>
    match carried field rest with
    | some f => some f
    | none => if lookupField key = some field then numberOf v else none

/-- A step of the two goroutines of the Pico W: `handleConnection` takes a step, or
`blinkLED` receives a value from `blink` (and then blinks for 2.5 seconds). -/
inductive Step where
  | server (a : Accepted)
  | indicator
deriving DecidableEq, Repr

/-- The effect of one step on the server and its channel; nothing when the goroutine
that should move is blocked. -/
def step (s : Server) : Step → Option Server
  | .server a => handleConnection s a
  | .indicator => (s.blink.recv).map (fun r => { s with blink := r.2 })

/-- The effect of a sequence of steps. -/
def steps : Server → List Step → Option Server
  | s, [] => some s
  | s, x :: rest => (step s x).bind (fun s' => steps s' rest)

/-- The number of toggles the specification gives for the value `n`: five when `n`
is `0`, else `n`. -/
def toggleCount (n : Nat) : Nat := if n = 0 then 5 else n

/-- The blink pattern of the specification, `k` states long: off, on, off, ...
(`true` is on). -/
def togglePattern (k : Nat) : List Bool := (List.range k).map (fun i => decide (i % 2 = 1))

/-! ## Sample inputs, continued -/

/-- The body with the empty JSON object. -/
def emptyObject : Body := .json (.obj [])

/-- The body with a JSON object holding `tempC` only. -/
def celsiusOnly : Body := .json (.obj [("tempC", .num ⟨false, 25, 0⟩)])

/-- The channel `blink` with three values pending. -/
def fullBlink : Chan := ⟨[5, 5, 5], 3⟩

/-- The body with a JSON object holding `tempF` only. -/
def fahrenheitOnly : Body := .json (.obj [("tempF", .num ⟨false, 77, 0⟩)])

/-- The body with the JSON value `null`. -/
def nullBody : Body := .json .null

/-- Five requests served while `blinkLED` is busy with the first: the first event is
received at once, the next three fill the channel, and the fifth exchange brings
`handleConnection` to its send. -/
def fiveRequests : List Step :=
  [.server .exchanged, .server .exchanged, .indicator,
   .server .exchanged, .server .exchanged,
   .server .exchanged, .server .exchanged,
   .server .exchanged, .server .exchanged,
   .server .exchanged]


end PicoTempExport

/-! # Properties -/

namespace PicoTempExport

/-! ## The cache: single calls -/

theorem getMetrics_of_lt (m : metrics) (client : Client) (url : String) (now₁ now₂ : Int)
    (h : now₁ < m.expire) : getMetrics m client url now₁ now₂ = (m, 0) := by
  simp [getMetrics, h]

theorem getMetrics_of_le (m : metrics) (client : Client) (url : String) (now₁ now₂ : Int)
    (h : m.expire ≤ now₁) :
    getMetrics m client url now₁ now₂ =
      (match (getTempValues m.results client url).2 with
        | some _ =>
          { results := ⟨Float64.zero, Float64.zero⟩, up := Float64.zero,
            expire := now₂ + 2 * Second }
        | none =>
          { results := (getTempValues m.results client url).1, up := Float64.one,
            expire := now₂ + 2 * Second }, 1) := by
  have h' : ¬ now₁ < m.expire := not_lt.mpr h
  simp only [getMetrics, h', if_false]
  cases (getTempValues m.results client url).2 <;> rfl

/-- C2: when the current time is strictly before `expire`, `getMetrics` makes no
`getTempValues` call and returns the `metrics` as they were: `results.TempC`,
`results.TempF`, `up` and `expire` are unchanged and the accessors return the cached
values, whatever the sensor would have answered. -/
theorem getMetrics_fresh_unchanged (m : metrics) (client : Client) (url : String)
    (now₁ now₂ : Int) (h : now₁ < m.expire) :
    (getMetrics m client url now₁ now₂).2 = 0 ∧
      (getMetrics m client url now₁ now₂).1 = m ∧
      tempC (getMetrics m client url now₁ now₂).1 = m.results.TempC ∧
      tempF (getMetrics m client url now₁ now₂).1 = m.results.TempF ∧
      status (getMetrics m client url now₁ now₂).1 = m.up ∧
      (getMetrics m client url now₁ now₂).1.expire = m.expire := by
  rw [getMetrics_of_lt m client url now₁ now₂ h]
  exact ⟨rfl, rfl, rfl, rfl, rfl, rfl⟩

/-- C2, at a healthy entry with the sensor down, one nanosecond before expiry: the
cached healthy reading is returned. -/
theorem getMetrics_fresh_unchanged_witness :
    (9999999999 : Int) < warmMetrics.expire ∧
      (getTempValues warmMetrics.results downClient "http://pico").2 = some .transport ∧
      (getMetrics warmMetrics downClient "http://pico" 9999999999 9999999999).2 = 0 ∧
      status (getMetrics warmMetrics downClient "http://pico" 9999999999 9999999999).1 =
        Float64.one ∧
      tempC (getMetrics warmMetrics downClient "http://pico" 9999999999 9999999999).1 =
        Float64.ofInt 20 :=
  have h := getMetrics_fresh_unchanged warmMetrics downClient "http://pico"
    9999999999 9999999999 (by decide)
  ⟨by decide, by decide, h.1, h.2.2.2.2.1, h.2.2.1⟩

/-- C3: when the cache has expired and `getTempValues` returns an error (whatever it
wrote into the `tempValues` before failing), after `getMetrics` the accessor `status`
returns `0` and `tempC` and `tempF` return `0`; `getMetrics` itself returns only the
`metrics`, no error. -/
theorem getMetrics_failed_refresh_zeroes (m : metrics) (client : Client) (url : String)
    (now₁ now₂ : Int) (hexp : m.expire ≤ now₁)
    (herr : (getTempValues m.results client url).2 ≠ none) :
    status (getMetrics m client url now₁ now₂).1 = Float64.zero ∧
      tempC (getMetrics m client url now₁ now₂).1 = Float64.zero ∧
      tempF (getMetrics m client url now₁ now₂).1 = Float64.zero := by
  rw [getMetrics_of_le m client url now₁ now₂ hexp]
  cases hr : (getTempValues m.results client url).2 with
  | none => exact absurd hr herr
  | some e => exact ⟨rfl, rfl, rfl⟩

/-- C3, at a healthy non-zero entry and a decode that fails after writing `TempC`. -/
theorem getMetrics_failed_refresh_zeroes_witness :
    getTempValues warmMetrics.results (respond 200 halfBody) "http://pico" =
        (⟨Float64.ofInt 25, Float64.ofInt 68⟩, some .decode) ∧
      status (getMetrics warmMetrics (respond 200 halfBody) "http://pico"
        10000000000 10000000001).1 = Float64.zero ∧
      tempC (getMetrics warmMetrics (respond 200 halfBody) "http://pico"
        10000000000 10000000001).1 = Float64.zero ∧
      tempF (getMetrics warmMetrics (respond 200 halfBody) "http://pico"
        10000000000 10000000001).1 = Float64.zero :=
  ⟨by decide,
    getMetrics_failed_refresh_zeroes warmMetrics (respond 200 halfBody) "http://pico"
      10000000000 10000000001 (by decide) (by decide)⟩

theorem getTempValues_wireBody (tv : tempValues) (client : Client) (url : String)
    (c f : JNumber) (vc vf : Float64)
    (hget : client url = .response ⟨StatusOK, wireBody c f⟩)
    (hc : parseFloat c = some vc) (hf : parseFloat f = some vf) :
    getTempValues tv client url = (⟨vc, vf⟩, none) := by
  have h1 : lookupField "tempC" = some .TempC := by decide
  have h2 : lookupField "tempF" = some .TempF := by decide
  simp [getTempValues, hget, wireBody, Decode, decodeMembers, decodeFloat, h1, h2, hc, hf]

/-- C6: for a response whose status is not `200`, whatever its body, `getTempValues`
returns an error wrapping `errInvalidResponse` and leaves the `tempValues` as they
were (the body is not decoded), and a `getMetrics` call on an expired cache then
yields `status = 0`; `getMetrics` returns its `metrics` and nothing else. -/
theorem getTempValues_non_ok_status (m : metrics) (client : Client) (url : String)
    (now₁ now₂ : Int) (response : Response)
    (hget : client url = .response response) (hstatus : response.StatusCode ≠ StatusOK) :
    (∀ tv, getTempValues tv client url =
        (tv, some (.errInvalidResponse response.StatusCode))) ∧
      (m.expire ≤ now₁ → status (getMetrics m client url now₁ now₂).1 = Float64.zero) := by
  have hfetch : ∀ tv, getTempValues tv client url =
      (tv, some (.errInvalidResponse response.StatusCode)) := by
    intro tv
    simp [getTempValues, hget, hstatus]
  refine ⟨hfetch, ?_⟩
  intro hexp
  rw [getMetrics_of_le m client url now₁ now₂ hexp, hfetch]
  rfl

/-- C6, at status 503 with a body that would decode, on an expired healthy entry. -/
theorem getTempValues_non_ok_status_witness :
    getTempValues warmMetrics.results
        (respond 503 (wireBody ⟨false, 25, 0⟩ ⟨false, 77, 0⟩)) "http://pico" =
        (warmMetrics.results, some (.errInvalidResponse 503)) ∧
      status (getMetrics warmMetrics (respond 503 (wireBody ⟨false, 25, 0⟩ ⟨false, 77, 0⟩))
        "http://pico" 10000000000 10000000001).1 = Float64.zero :=
  have h := getTempValues_non_ok_status warmMetrics
    (respond 503 (wireBody ⟨false, 25, 0⟩ ⟨false, 77, 0⟩)) "http://pico"
    10000000000 10000000001 ⟨503, wireBody ⟨false, 25, 0⟩ ⟨false, 77, 0⟩⟩ rfl (by decide)
  ⟨h.1 warmMetrics.results, h.2 (by decide)⟩

/-! ## The cache: runs of calls -/

theorem getMetrics_expire (m : metrics) (client : Client) (url : String) (now₁ now₂ : Int)
    (h : m.expire ≤ now₁) :
    (getMetrics m client url now₁ now₂).1.expire = now₂ + 2 * Second := by
  rw [getMetrics_of_le m client url now₁ now₂ h]
  cases (getTempValues m.results client url).2 <;> rfl

theorem run_cons_fresh (m : metrics) (c : Call) (rest : List Call) (h : c.now₁ < m.expire) :
    run m (c :: rest) = run m rest := by
  simp [run, getMetrics_of_lt m c.client c.url c.now₁ c.now₂ h]

theorem run_cons_expired (m : metrics) (c : Call) (rest : List Call) (h : m.expire ≤ c.now₁) :
    run m (c :: rest) =
      ((run (getMetrics m c.client c.url c.now₁ c.now₂).1 rest).1,
        ⟨c.now₁, c.now₂⟩ :: (run (getMetrics m c.client c.url c.now₁ c.now₂).1 rest).2) := by
  have h2 : (getMetrics m c.client c.url c.now₁ c.now₂).2 = 1 := by
    rw [getMetrics_of_le m c.client c.url c.now₁ c.now₂ h]
  simp [run, h2]

theorem second_eq : Second = 1000000000 := rfl

/-- Every refresh attempt of a run on an ordered clock is checked no earlier than
the start of the run and no earlier than the expiry time the run started with. -/
theorem run_attempt_lower_bound (calls : List Call) :
    ∀ (m : metrics) (t : Int), ClockOrdered t calls →
      ∀ a ∈ (run m calls).2, t ≤ a.checked ∧ m.expire ≤ a.checked := by
  induction calls with
  | nil => intro m t _ a ha; simp [run] at ha
  | cons c rest ih =>
    intro m t hclock a ha
    obtain ⟨h1, h2, h3⟩ := hclock
    by_cases hfresh : c.now₁ < m.expire
    · rw [run_cons_fresh m c rest hfresh] at ha
      have := ih m c.now₂ h3 a ha
      exact ⟨by omega, this.2⟩
    · have hexp : m.expire ≤ c.now₁ := not_lt.mp hfresh
      rw [run_cons_expired m c rest hexp] at ha
      rcases List.mem_cons.mp ha with rfl | ha
      · exact ⟨h1, hexp⟩
      · have := ih (getMetrics m c.client c.url c.now₁ c.now₂).1 c.now₂ h3 a ha
        have hs := second_eq
        rw [getMetrics_expire m c.client c.url c.now₁ c.now₂ hexp] at this
        exact ⟨by omega, by omega⟩

theorem run_attempts_pairwise (calls : List Call) :
    ∀ (m : metrics) (t : Int), ClockOrdered t calls →
      (run m calls).2.Pairwise (fun a b => a.checked + 2 * Second ≤ b.checked) := by
  induction calls with
  | nil => intro m t _; simp [run]
  | cons c rest ih =>
    intro m t hclock
    obtain ⟨_, h2, h3⟩ := hclock
    by_cases hfresh : c.now₁ < m.expire
    · rw [run_cons_fresh m c rest hfresh]
      exact ih m c.now₂ h3
    · have hexp : m.expire ≤ c.now₁ := not_lt.mp hfresh
      rw [run_cons_expired m c rest hexp]
      refine List.pairwise_cons.mpr ⟨?_, ih _ c.now₂ h3⟩
      intro a ha
      have := run_attempt_lower_bound rest
        (getMetrics m c.client c.url c.now₁ c.now₂).1 c.now₂ h3 a ha
      rw [getMetrics_expire m c.client c.url c.now₁ c.now₂ hexp] at this
      have hs := second_eq
      show c.now₁ + 2 * Second ≤ a.checked
      omega

theorem run_attempt_is_call (calls : List Call) :
    ∀ (m : metrics), ∀ a ∈ (run m calls).2, ∃ c ∈ calls, c.now₁ = a.checked := by
  induction calls with
  | nil => intro m a ha; simp [run] at ha
  | cons c rest ih =>
    intro m a ha
    by_cases hfresh : c.now₁ < m.expire
    · rw [run_cons_fresh m c rest hfresh] at ha
      obtain ⟨c', hc', h⟩ := ih m a ha
      exact ⟨c', List.mem_cons_of_mem _ hc', h⟩
    · have hexp : m.expire ≤ c.now₁ := not_lt.mp hfresh
      rw [run_cons_expired m c rest hexp] at ha
      rcases List.mem_cons.mp ha with rfl | ha
      · exact ⟨c, List.mem_cons_self _ _, rfl⟩
      · obtain ⟨c', hc', h⟩ := ih _ a ha
        exact ⟨c', List.mem_cons_of_mem _ hc', h⟩

theorem length_le_one_of_pairwise (l : List Attempt) (lo : Int)
    (hp : l.Pairwise (fun a b => a.checked + 2 * Second ≤ b.checked))
    (hlo : ∀ a ∈ l, lo ≤ a.checked) (hhi : ∀ a ∈ l, a.checked < lo + 2 * Second) :
    l.length ≤ 1 := by
  match l, hp, hlo, hhi with
  | [], _, _, _ => simp
  | [_], _, _, _ => simp
  | a :: b :: rest, hp, hlo, hhi =>
    exfalso
    have h1 := (List.pairwise_cons.mp hp).1 b (List.mem_cons_self _ _)
    have h2 := hlo a (List.mem_cons_self _ _)
    have h3 := hhi b (List.mem_cons_of_mem _ (List.mem_cons_self _ _))
    have hs := second_eq
    omega

theorem run_all_fresh (calls : List Call) (m : metrics)
    (h : ∀ c ∈ calls, c.now₁ < m.expire) : (run m calls).2 = [] := by
  induction calls with
  | nil => rfl
  | cons c rest ih =>
    rw [run_cons_fresh m c rest (h c (List.mem_cons_self _ _))]
    exact ih (fun c' hc' => h c' (List.mem_cons_of_mem _ hc'))

/-- C1: in every run of `getMetrics` calls made one at a time (as the lock orders
them) on a non-decreasing clock, from any cache state and whatever the sensor
answers, any two calls that call `getTempValues` have check times at least two
seconds apart. So at most one `getTempValues` call is made when all the check times
of the run lie in one window shorter than two seconds, and also when all the calls
after the first are checked less than two seconds after the first has returned, as
the three gauge evaluations of a scrape are. -/
theorem fetches_two_seconds_apart (m : metrics) (t : Int) (calls : List Call)
    (hclock : ClockOrdered t calls) :
    (run m calls).2.Pairwise (fun a b => a.checked + 2 * Second ≤ b.checked) ∧
      ((∀ c ∈ calls, c.now₁ < t + 2 * Second) → (run m calls).2.length ≤ 1) ∧
      (∀ c rest, calls = c :: rest → (∀ c' ∈ rest, c'.now₁ < c.now₂ + 2 * Second) →
        (run m calls).2.length ≤ 1) := by
  refine ⟨run_attempts_pairwise calls m t hclock, ?_, ?_⟩
  · intro hwin
    refine length_le_one_of_pairwise _ t (run_attempts_pairwise calls m t hclock) ?_ ?_
    · intro a ha
      exact (run_attempt_lower_bound calls m t hclock a ha).1
    · intro a ha
      obtain ⟨c, hc, h⟩ := run_attempt_is_call calls m a ha
      rw [← h]
      exact hwin c hc
  · intro c rest hcalls hwin
    subst hcalls
    obtain ⟨_, _, hrest⟩ := hclock
    by_cases hfresh : c.now₁ < m.expire
    · rw [run_cons_fresh m c rest hfresh]
      refine length_le_one_of_pairwise _ c.now₂ (run_attempts_pairwise rest m c.now₂ hrest)
        ?_ ?_
      · intro a ha
        exact (run_attempt_lower_bound rest m c.now₂ hrest a ha).1
      · intro a ha
        obtain ⟨c', hc', h⟩ := run_attempt_is_call rest m a ha
        rw [← h]
        exact hwin c' hc'
    · have hexp : m.expire ≤ c.now₁ := not_lt.mp hfresh
      rw [run_cons_expired m c rest hexp, run_all_fresh rest]
      · simp
      · intro c' hc'
        rw [getMetrics_expire m c.client c.url c.now₁ c.now₂ hexp]
        exact hwin c' hc'

/-- C1, at one scrape of a fresh exporter with the sensor down: the three gauge
evaluations make one upstream call. -/
theorem fetches_two_seconds_apart_witness :
    ClockOrdered 7000000000 (scrapeCalls downClient 7000000000) ∧
      (run newMetrics (scrapeCalls downClient 7000000000)).2 =
        [⟨7000000000, 7500000000⟩] ∧
      (run newMetrics (scrapeCalls downClient 7000000000)).2.length ≤ 1 :=
  ⟨by decide, by decide,
    (fetches_two_seconds_apart newMetrics 7000000000 (scrapeCalls downClient 7000000000)
      (by decide)).2.1 (by decide)⟩

/-- C5: a `getMetrics` call that attempts a refresh sets `expire` to the `time.Now()`
it reads after the fetch plus two seconds, whether the fetch failed or succeeded,
and in every state reached by a run with at least one refresh attempt `expire` is
the time of the last attempt plus two seconds. -/
theorem expire_is_last_attempt_plus_ttl :
    (∀ (m : metrics) (client : Client) (url : String) (now₁ now₂ : Int),
        m.expire ≤ now₁ →
        (getMetrics m client url now₁ now₂).1.expire = now₂ + 2 * Second) ∧
      (∀ (m : metrics) (calls : List Call) (a : Attempt),
        (run m calls).2.getLast? = some a →
        (run m calls).1.expire = a.fetched + 2 * Second) := by
  refine ⟨fun m client url now₁ now₂ h => getMetrics_expire m client url now₁ now₂ h, ?_⟩
  intro m calls
  induction calls generalizing m with
  | nil => intro a ha; simp [run] at ha
  | cons c rest ih =>
    intro a ha
    by_cases hfresh : c.now₁ < m.expire
    · rw [run_cons_fresh m c rest hfresh] at ha ⊢
      exact ih m a ha
    · have hexp : m.expire ≤ c.now₁ := not_lt.mp hfresh
      rw [run_cons_expired m c rest hexp] at ha ⊢
      cases hrest : (run (getMetrics m c.client c.url c.now₁ c.now₂).1 rest).2 with
      | nil =>
        rw [hrest] at ha
        simp at ha
        subst ha
        have : (run (getMetrics m c.client c.url c.now₁ c.now₂).1 rest).1 =
            (getMetrics m c.client c.url c.now₁ c.now₂).1 := by
          clear ih
          generalize (getMetrics m c.client c.url c.now₁ c.now₂).1 = m' at hrest
          induction rest generalizing m' with
          | nil => rfl
          | cons c' rest' ih' =>
            by_cases hf : c'.now₁ < m'.expire
            · rw [run_cons_fresh m' c' rest' hf] at hrest ⊢
              exact ih' m' hrest
            · rw [run_cons_expired m' c' rest' (not_lt.mp hf)] at hrest
              simp at hrest
        show (run (getMetrics m c.client c.url c.now₁ c.now₂).1 rest).1.expire = _
        rw [this]
        exact getMetrics_expire m c.client c.url c.now₁ c.now₂ hexp
      | cons b bs =>
        rw [hrest] at ha
        have ha' : (run (getMetrics m c.client c.url c.now₁ c.now₂).1 rest).2.getLast? =
            some a := by
          rw [hrest]
          simpa [List.getLast?_cons_cons] using ha
        exact ih _ a ha'

/-- C5, at an expired entry whose refresh ends three seconds after the check: the
failed fetch and the successful one both leave `expire` five seconds after the
check, and so does the scrape of a fresh exporter with the sensor down. -/
theorem expire_is_last_attempt_plus_ttl_witness :
    (getMetrics warmMetrics downClient "http://pico" 10000000000 13000000000).1.expire =
        13000000000 + 2 * Second ∧
      (getMetrics warmMetrics (respond 200 (wireBody ⟨false, 25, 0⟩ ⟨false, 77, 0⟩))
        "http://pico" 10000000000 13000000000).1.expire = 13000000000 + 2 * Second ∧
      (run newMetrics (scrapeCalls downClient 7000000000)).1.expire =
        7500000000 + 2 * Second :=
  ⟨expire_is_last_attempt_plus_ttl.1 warmMetrics downClient "http://pico"
      10000000000 13000000000 (by decide),
    expire_is_last_attempt_plus_ttl.1 warmMetrics
      (respond 200 (wireBody ⟨false, 25, 0⟩ ⟨false, 77, 0⟩)) "http://pico"
      10000000000 13000000000 (by decide),
    expire_is_last_attempt_plus_ttl.2 newMetrics (scrapeCalls downClient 7000000000)
      ⟨7000000000, 7500000000⟩ (by decide)⟩

/-! ## The decoder: which bodies are accepted and what is stored -/

/-- Keys select a field by an exact or a case-insensitive match with its tag. -/
theorem lookupField_examples :
    lookupField "tempC" = some .TempC ∧ lookupField "TEMPC" = some .TempC ∧
      lookupField "tempf" = some .TempF ∧ lookupField "temp" = none ∧
      lookupField "tempC " = none := by
  decide

theorem decodeFloat_eq (v : JValue) (old : Float64) :
    decodeFloat v old = ((numberOf v).getD old, !acceptable v) := by
  cases v with
  | num n =>
    simp only [decodeFloat, numberOf, acceptable]
    cases parseFloat n <;> rfl
  | null => rfl
  | bool b => rfl
  | str s => rfl
  | arr items => rfl
  | obj members => rfl

theorem carried_cons_of_ne (field : Field) (key : String) (v : JValue)
    (rest : List (String × JValue)) (h : lookupField key ≠ some field) :
    carried field ((key, v) :: rest) = carried field rest := by
  simp only [carried, h, if_false]
  cases carried field rest <;> rfl

theorem carried_cons_of_eq (field : Field) (key : String) (v : JValue)
    (rest : List (String × JValue)) (old : Float64) (h : lookupField key = some field) :
    (carried field ((key, v) :: rest)).getD old =
      (carried field rest).getD ((numberOf v).getD old) := by
  simp only [carried, h, if_true]
  cases carried field rest <;> rfl

/-- What the decoder does with the members of an object: each field ends as the
number the object carries for it, or as it was when the object carries none, and an
error is recorded exactly when a member that selects a field holds a value that is
not acceptable. -/
theorem decodeMembers_eq (members : List (String × JValue)) :
    ∀ (tv : tempValues) (bad : Bool),
      decodeMembers members tv bad =
        (⟨(carried .TempC members).getD tv.TempC, (carried .TempF members).getD tv.TempF⟩,
          bad || !validMembers members) := by
  induction members with
  | nil => intro tv bad; simp [decodeMembers, carried, validMembers]
  | cons kv rest ih =>
    intro tv bad
    obtain ⟨key, v⟩ := kv
    have hvalid : validMembers ((key, v) :: rest) =
        (((lookupField key).isNone || acceptable v) && validMembers rest) := by
      simp [validMembers]
    cases hk : lookupField key with
    | none =>
      simp only [decodeMembers, hk]
      rw [ih tv bad, carried_cons_of_ne .TempC key v rest (by simp [hk]),
        carried_cons_of_ne .TempF key v rest (by simp [hk]), hvalid, hk]
      simp
    | some field =>
      cases field with
      | TempC =>
        simp only [decodeMembers, hk]
        rw [ih, carried_cons_of_eq .TempC key v rest tv.TempC hk,
          carried_cons_of_ne .TempF key v rest (by simp [hk]), hvalid, hk, decodeFloat_eq]
        cases bad <;> cases acceptable v <;> simp
      | TempF =>
        simp only [decodeMembers, hk]
        rw [ih, carried_cons_of_eq .TempF key v rest tv.TempF hk,
          carried_cons_of_ne .TempC key v rest (by simp [hk]), hvalid, hk, decodeFloat_eq]
        cases bad <;> cases acceptable v <;> simp

theorem carried_of_not_mentions (field : Field) (members : List (String × JValue))
    (h : mentions field members = false) : carried field members = none := by
  induction members with
  | nil => rfl
  | cons kv rest ih =>
    obtain ⟨key, v⟩ := kv
    simp only [mentions, List.any_cons, Bool.or_eq_false_iff, decide_eq_false_iff_not] at h
    rw [carried_cons_of_ne field key v rest h.1]
    exact ih h.2

theorem getTempValues_ok_object (tv : tempValues) (client : Client) (url : String)
    (members : List (String × JValue))
    (hget : client url = .response ⟨StatusOK, .json (.obj members)⟩) :
    getTempValues tv client url =
      (⟨(carried .TempC members).getD tv.TempC, (carried .TempF members).getD tv.TempF⟩,
        if validMembers members then none else some .decode) := by
  simp only [getTempValues, hget, Decode, decodeMembers_eq]
  cases validMembers members <;> simp

theorem getTempValues_ok_null (tv : tempValues) (client : Client) (url : String)
    (hget : client url = .response ⟨StatusOK, .json .null⟩) :
    getTempValues tv client url = (tv, none) := by
  simp [getTempValues, hget, Decode]

/-- When `getTempValues` returns no error: the transport succeeded, the status is
`200`, and the body is `null` or an object whose members for the two fields are all
acceptable. -/
theorem getTempValues_eq_none_iff (tv : tempValues) (client : Client) (url : String) :
    (getTempValues tv client url).2 = none ↔
      ∃ body, client url = .response ⟨StatusOK, body⟩ ∧
        (body = .json .null ∨
          ∃ members, body = .json (.obj members) ∧ validMembers members = true) := by
  constructor
  · intro h
    cases hget : client url with
    | transportError => simp [getTempValues, hget] at h
    | response response =>
      obtain ⟨code, body⟩ := response
      by_cases hcode : code = StatusOK
      · subst hcode
        refine ⟨body, rfl, ?_⟩
        cases body with
        | malformed => simp [getTempValues, hget, Decode] at h
        | json v =>
          cases v with
          | null => exact Or.inl rfl
          | obj members =>
            refine Or.inr ⟨members, rfl, ?_⟩
            rw [getTempValues_ok_object tv client url members hget] at h
            cases hv : validMembers members with
            | true => rfl
            | false => simp [hv] at h
          | bool b => simp [getTempValues, hget, Decode] at h
          | num n => simp [getTempValues, hget, Decode] at h
          | str s => simp [getTempValues, hget, Decode] at h
          | arr items => simp [getTempValues, hget, Decode] at h
      · simp [getTempValues, hget, hcode] at h
  · rintro ⟨body, hget, hbody | ⟨members, hbody, hvalid⟩⟩
    · subst hbody
      rw [getTempValues_ok_null tv client url hget]
    · subst hbody
      rw [getTempValues_ok_object tv client url members hget, hvalid]
      rfl

/-! ## C7: the fields need not be in the body -/

/-- C7 as stated fails: the 200 responses with the bodies `{}` and `{"tempC": 25}`
make `getTempValues` return no error, the missing fields keeping their values, and
the refresh of an expired entry with `{"tempC": 25}` reports `up = 1` with the
`TempF` of the earlier reading (68). -/
theorem getTempValues_accepts_missing_field :
    getTempValues warmMetrics.results (respond 200 emptyObject) "http://pico" =
        (⟨Float64.ofInt 20, Float64.ofInt 68⟩, none) ∧
      getTempValues warmMetrics.results (respond 200 celsiusOnly) "http://pico" =
        (⟨Float64.ofInt 25, Float64.ofInt 68⟩, none) ∧
      (getMetrics warmMetrics (respond 200 celsiusOnly) "http://pico"
        10000000000 10000000001).1 =
        ⟨⟨Float64.ofInt 25, Float64.ofInt 68⟩, Float64.one, 12000000001⟩ := by
  decide

/-- C7, amended: `getTempValues` returns no error exactly when the transport
succeeded, the status is `200` and the body is the JSON value `null` or a JSON object
in which every member that selects `tempC` or `tempF` holds `null` or a number in
the float64 range; a member of theirs holding anything else (a string, a boolean, an
array, an object, a number out of range) makes it return an error. The two fields
need not be in the body: after a 200 response with such an object, a field that no
member selects keeps the value it had, and the refresh of an expired entry reports
`up = 1` with that earlier value. -/
theorem getTempValues_success_and_missing_fields (m : metrics) (client : Client)
    (url : String) (now₁ now₂ : Int) :
    ((getTempValues m.results client url).2 = none ↔
        ∃ body, client url = .response ⟨StatusOK, body⟩ ∧
          (body = .json .null ∨
            ∃ members, body = .json (.obj members) ∧ validMembers members = true)) ∧
      (∀ members key v, client url = .response ⟨StatusOK, .json (.obj members)⟩ →
        (key, v) ∈ members → lookupField key ≠ none → acceptable v = false →
        (getTempValues m.results client url).2 = some .decode) ∧
      (∀ members, client url = .response ⟨StatusOK, .json (.obj members)⟩ →
        validMembers members = true →
        (mentions .TempC members = false →
          (getTempValues m.results client url).1.TempC = m.results.TempC) ∧
        (mentions .TempF members = false →
          (getTempValues m.results client url).1.TempF = m.results.TempF) ∧
        (m.expire ≤ now₁ →
          status (getMetrics m client url now₁ now₂).1 = Float64.one ∧
          (mentions .TempC members = false →
            tempC (getMetrics m client url now₁ now₂).1 = m.results.TempC) ∧
          (mentions .TempF members = false →
            tempF (getMetrics m client url now₁ now₂).1 = m.results.TempF))) := by
  refine ⟨getTempValues_eq_none_iff m.results client url, ?_, ?_⟩
  · intro members key v hget hmem hkey hbad
    rw [getTempValues_ok_object m.results client url members hget]
    have hinvalid : validMembers members = false := by
      cases hv : validMembers members with
      | false => rfl
      | true =>
        have := List.all_eq_true.mp hv (key, v) hmem
        cases hl : lookupField key with
        | none => exact absurd hl hkey
        | some field => simp [hl, hbad] at this
    simp [hinvalid]
  · intro members hget hvalid
    have hfetch := getTempValues_ok_object m.results client url members hget
    rw [hvalid] at hfetch
    refine ⟨?_, ?_, ?_⟩
    · intro hc
      rw [hfetch, carried_of_not_mentions .TempC members hc]
      rfl
    · intro hf
      rw [hfetch, carried_of_not_mentions .TempF members hf]
      rfl
    · intro hexp
      rw [getMetrics_of_le m client url now₁ now₂ hexp, hfetch]
      refine ⟨rfl, ?_, ?_⟩
      · intro hc
        show (carried .TempC members).getD m.results.TempC = m.results.TempC
        rw [carried_of_not_mentions .TempC members hc]
        rfl
      · intro hf
        show (carried .TempF members).getD m.results.TempF = m.results.TempF
        rw [carried_of_not_mentions .TempF members hf]
        rfl

/-- C7 amended, on the expired healthy entry 20 / 68: the body `{"tempC": 25}` is
accepted and the refresh reports `up = 1` with `TempF` still 68, while the body with
a string for `tempF` is refused. -/
theorem getTempValues_success_and_missing_fields_witness :
    validMembers [("tempC", JValue.num ⟨false, 25, 0⟩)] = true ∧
      mentions .TempF [("tempC", JValue.num ⟨false, 25, 0⟩)] = false ∧
      (getTempValues warmMetrics.results (respond 200 celsiusOnly) "http://pico").2 = none ∧
      status (getMetrics warmMetrics (respond 200 celsiusOnly) "http://pico"
        10000000000 10000000001).1 = Float64.one ∧
      tempF (getMetrics warmMetrics (respond 200 celsiusOnly) "http://pico"
        10000000000 10000000001).1 = Float64.ofInt 68 ∧
      (getTempValues warmMetrics.results (respond 200 halfBody) "http://pico").2 =
        some .decode :=
  have h := getTempValues_success_and_missing_fields warmMetrics (respond 200 celsiusOnly)
    "http://pico" 10000000000 10000000001
  have hr := (h.2.2 [("tempC", JValue.num ⟨false, 25, 0⟩)] rfl (by decide)).2.2 (by decide)
  ⟨by decide, by decide,
    h.1.mpr ⟨celsiusOnly, rfl, Or.inr ⟨_, rfl, by decide⟩⟩,
    hr.1, hr.2.2 (by decide),
    (getTempValues_success_and_missing_fields warmMetrics (respond 200 halfBody)
      "http://pico" 10000000000 10000000001).2.1
      [("tempC", .num ⟨false, 25, 0⟩), ("tempF", .str "warm")] "tempF" (.str "warm")
      rfl (by simp) (by decide) rfl⟩

/-! ## C4: what a successful refresh caches -/

/-- C4 as stated fails: on the expired entry 20 / 68 the fetch of the body
`{"tempF": 77}` succeeds (one call, no error), the sensor's answer carries no
`tempC`, and the cached reading is 20 / 77 with `up = 1`: its `tempC` is not a value
the sensor returned. The same holds for the body `null`, which leaves 20 / 68. -/
theorem getMetrics_caches_leftover_field :
    (getTempValues warmMetrics.results (respond 200 fahrenheitOnly) "http://pico").2 = none ∧
      carried .TempC [("tempF", JValue.num ⟨false, 77, 0⟩)] = none ∧
      getMetrics warmMetrics (respond 200 fahrenheitOnly) "http://pico"
        10000000000 10000000001 =
        (⟨⟨Float64.ofInt 20, Float64.ofInt 77⟩, Float64.one, 12000000001⟩, 1) ∧
      getMetrics warmMetrics (respond 200 nullBody) "http://pico"
        10000000000 10000000001 =
        (⟨⟨Float64.ofInt 20, Float64.ofInt 68⟩, Float64.one, 12000000001⟩, 1) := by
  decide

/-- C4, amended: when the current time is at or after `expire`, `getMetrics` makes
exactly one `getTempValues` call, whatever the cached state (healthy or not). When
that call returns no error, `up` is `1` and each cached field is the number the
sensor's body carries for it, or the value cached before when the body carries none
(the body `null`, or an object without a number for that field); so for a body with
the two numbers `tempC` and `tempF` the cached reading is exactly these two. -/
theorem getMetrics_expired_refreshes (m : metrics) (client : Client) (url : String)
    (now₁ now₂ : Int) (hexp : m.expire ≤ now₁) :
    (getMetrics m client url now₁ now₂).2 = 1 ∧
      ((getTempValues m.results client url).2 = none →
        status (getMetrics m client url now₁ now₂).1 = Float64.one ∧
        ((client url = .response ⟨StatusOK, .json .null⟩ ∧
            (getMetrics m client url now₁ now₂).1.results = m.results) ∨
          ∃ members, client url = .response ⟨StatusOK, .json (.obj members)⟩ ∧
            tempC (getMetrics m client url now₁ now₂).1 =
              (carried .TempC members).getD m.results.TempC ∧
            tempF (getMetrics m client url now₁ now₂).1 =
              (carried .TempF members).getD m.results.TempF)) ∧
      (∀ c f vc vf, client url = .response ⟨StatusOK, wireBody c f⟩ →
        parseFloat c = some vc → parseFloat f = some vf →
        tempC (getMetrics m client url now₁ now₂).1 = vc ∧
          tempF (getMetrics m client url now₁ now₂).1 = vf ∧
          status (getMetrics m client url now₁ now₂).1 = Float64.one) := by
  rw [getMetrics_of_le m client url now₁ now₂ hexp]
  refine ⟨rfl, ?_, ?_⟩
  · intro h
    obtain ⟨body, hget, hbody | ⟨members, hbody, hvalid⟩⟩ :=
      (getTempValues_eq_none_iff m.results client url).mp h
    · subst hbody
      rw [getTempValues_ok_null m.results client url hget]
      exact ⟨rfl, Or.inl ⟨hget, rfl⟩⟩
    · subst hbody
      rw [getTempValues_ok_object m.results client url members hget, hvalid]
      exact ⟨rfl, Or.inr ⟨members, hget, rfl, rfl⟩⟩
  · intro c f vc vf hget hc hf
    rw [getTempValues_wireBody m.results client url c f vc vf hget hc hf]
    exact ⟨rfl, rfl, rfl⟩

/-- C4 amended, at a healthy entry holding 20 / 68 that has just expired, the sensor
answering 25 / 77. -/
theorem getMetrics_expired_refreshes_witness :
    warmMetrics.expire ≤ (10000000000 : Int) ∧
      (getMetrics warmMetrics (respond 200 (wireBody ⟨false, 25, 0⟩ ⟨false, 77, 0⟩))
        "http://pico" 10000000000 10000000001).2 = 1 ∧
      tempC (getMetrics warmMetrics (respond 200 (wireBody ⟨false, 25, 0⟩ ⟨false, 77, 0⟩))
        "http://pico" 10000000000 10000000001).1 = Float64.ofInt 25 ∧
      tempF (getMetrics warmMetrics (respond 200 (wireBody ⟨false, 25, 0⟩ ⟨false, 77, 0⟩))
        "http://pico" 10000000000 10000000001).1 = Float64.ofInt 77 ∧
      status (getMetrics warmMetrics (respond 200 (wireBody ⟨false, 25, 0⟩ ⟨false, 77, 0⟩))
        "http://pico" 10000000000 10000000001).1 = Float64.one :=
  have h := getMetrics_expired_refreshes warmMetrics
    (respond 200 (wireBody ⟨false, 25, 0⟩ ⟨false, 77, 0⟩)) "http://pico"
    10000000000 10000000001 (by decide)
  have h' := h.2.2 ⟨false, 25, 0⟩ ⟨false, 77, 0⟩ (Float64.ofInt 25) (Float64.ofInt 77)
    rfl (by decide) (by decide)
  ⟨by decide, h.1, h'.1, h'.2.1, h'.2.2⟩

/-! ## The blink channel -/

/-- The send `blink <- 5` of `handleConnection` on the channel of capacity 3: with
fewer than three values pending it appends `5` to the queue and the loop goes back
to `listener.Accept`; with three pending the goroutine cannot take the step, and it
can again once `blinkLED` has received a value. -/
theorem handleConnection_emit (pending : List Nat) (a : Accepted)
    (hcap : pending.length ≤ 3) :
    (pending.length < 3 →
        handleConnection ⟨.emit, ⟨pending, 3⟩⟩ a = some ⟨.accept, ⟨pending ++ [5], 3⟩⟩) ∧
      (pending.length = 3 → handleConnection ⟨.emit, ⟨pending, 3⟩⟩ a = none) ∧
      (∀ v ch, Chan.recv ⟨pending, 3⟩ = some (v, ch) →
        ∃ s, handleConnection ⟨.emit, ch⟩ a = some s ∧ s.pc = .accept ∧
          s.blink.buf = ch.buf ++ [5]) := by
  refine ⟨?_, ?_, ?_⟩
  · intro h
    simp [handleConnection, Chan.send, h]
  · intro h
    simp [handleConnection, Chan.send, h]
  · intro v ch hrecv
    cases pending with
    | nil => simp [Chan.recv] at hrecv
    | cons x rest =>
      simp only [Chan.recv, Option.some.injEq, Prod.mk.injEq] at hrecv
      obtain ⟨_, rfl⟩ := hrecv
      have hlen : rest.length < 3 := by
        simp only [List.length_cons] at hcap
        omega
      exact ⟨⟨.accept, ⟨rest ++ [5], 3⟩⟩, by simp [handleConnection, Chan.send, hlen], rfl, rfl⟩

/-- C8, the code at the failing input: five requests served while `blinkLED` is busy
with the first bring `handleConnection` to its send `blink <- 5` with three values
pending, and there the goroutine cannot take the step, whatever happened to the
connection: it waits at the send instead of dropping the event and going back to
`listener.Accept`. -/
theorem handleConnection_blocks_on_full_queue :
    steps ⟨.accept, makeBlink⟩ fiveRequests = some ⟨.emit, fullBlink⟩ ∧
      handleConnection ⟨.emit, fullBlink⟩ .exchanged = none ∧
      handleConnection ⟨.emit, fullBlink⟩ .acceptError = none ∧
      handleConnection ⟨.emit, fullBlink⟩ .deadlineError = none ∧
      steps ⟨.accept, makeBlink⟩ (fiveRequests ++ [.server .exchanged]) = none := by
  decide

/-! ## The LED indicator -/

theorem blinkLoop_eq (fuel : Nat) :
    ∀ (n i : Nat) (last : Bool) (written : List Bool), n < uintSize → i ≤ n → n - i < fuel →
      blinkLoop fuel n i last written =
        some (written ++ (List.range (n - i)).map
          (fun j => if j % 2 = 0 then !last else last)) := by
  induction fuel with
  | zero => intro n i last written _ _ h; omega
  | succ fuel ih =>
    intro n i last written hn hi hfuel
    by_cases hlt : i < n
    · have hmod : (i + 1) % uintSize = i + 1 := Nat.mod_eq_of_lt (by omega)
      have hsub : n - i = (n - (i + 1)) + 1 := by omega
      simp only [blinkLoop, hlt, if_true, hmod]
      rw [ih n (i + 1) (!last) (written ++ [!last]) hn (by omega) (by omega), hsub,
        List.range_succ_eq_map]
      simp only [List.map_cons, List.map_map, List.append_assoc, List.singleton_append,
        Nat.zero_mod, if_true, Option.some.injEq, List.append_cancel_left_eq, List.cons.injEq,
        true_and]
      apply List.map_congr_left
      intro j _
      simp only [Function.comp, Nat.succ_eq_add_one, Bool.not_not]
      rcases Nat.mod_two_eq_zero_or_one j with h | h
      · have : (j + 1) % 2 = 1 := by omega
        simp [h, this]
      · have : (j + 1) % 2 = 0 := by omega
        simp [h, this]
    · have : n - i = 0 := by omega
      simp [blinkLoop, hlt, this]

theorem togglePattern_eq (k : Nat) :
    (List.range k).map (fun j => if j % 2 = 0 then !true else true) = togglePattern k := by
  unfold togglePattern
  apply List.map_congr_left
  intro j _
  rcases Nat.mod_two_eq_zero_or_one j with h | h <;> simp [h]

/-- C10: for every value `n` of type `uint` received, the loop of `blinkLED` ends
(more than `k` units of fuel always suffice) and the states written to the LED are
exactly `k` toggles off, on, off, ... starting from off, where `k` is `5` when `n`
is `0` and `n` otherwise, followed by one more write of on: the last state written
is on, also when `k` is odd and the last toggle wrote off. -/
theorem blinkLED_pattern (n fuel : Nat) (hn : n < uintSize) (hfuel : toggleCount n < fuel) :
    blinkLED fuel n = some (togglePattern (toggleCount n) ++ [true]) ∧
      (togglePattern (toggleCount n)).length = toggleCount n ∧
      (∀ i, i < toggleCount n →
        (togglePattern (toggleCount n))[i]? = some (decide (i % 2 = 1))) ∧
      (togglePattern (toggleCount n) ++ [true]).getLast? = some true ∧
      (toggleCount n % 2 = 1 → (togglePattern (toggleCount n)).getLast? = some false) := by
  have hk : toggleCount n < uintSize := by
    unfold toggleCount
    split
    · decide
    · exact hn
  refine ⟨?_, by simp [togglePattern], ?_, by simp, ?_⟩
  · have h := blinkLoop_eq fuel (toggleCount n) 0 true [] hk (Nat.zero_le _) (by omega)
    simp only [Nat.sub_zero, List.nil_append] at h
    rw [togglePattern_eq] at h
    show Option.map _ (blinkLoop fuel (toggleCount n) 0 true []) = _
    rw [h]
    rfl
  · intro i hi
    simp [togglePattern, hi]
  · intro hodd
    have hpos : 0 < toggleCount n := by omega
    obtain ⟨k, hk'⟩ : ∃ k, toggleCount n = k + 1 := ⟨toggleCount n - 1, by omega⟩
    rw [hk'] at hodd ⊢
    have hkeven : k % 2 = 0 := by omega
    simp [togglePattern, List.range_succ, hkeven]

/-- C10, at the value `5` that `handleConnection` sends and at `0`. -/
theorem blinkLED_pattern_witness :
    blinkLED 6 5 = some [false, true, false, true, false, true] ∧
      blinkLED 6 0 = some [false, true, false, true, false, true] :=
  ⟨(blinkLED_pattern 5 6 (by decide) (by decide)).1,
    (blinkLED_pattern 0 6 (by decide) (by decide)).1⟩

/-! ## float64 rounding: the error of one operation -/

namespace Float64

theorem log2Fuel_spec (fuel : Nat) :
    ∀ n, 0 < n → n ≤ fuel → 2 ^ log2Fuel fuel n ≤ n ∧ n < 2 ^ (log2Fuel fuel n + 1) := by
  induction fuel with
  | zero => intro n h1 h2; omega
  | succ fuel ih =>
    intro n hn hle
    by_cases h2 : n < 2
    · simp only [log2Fuel, h2, if_true]
      constructor <;> simp <;> omega
    · simp only [log2Fuel, h2, if_false]
      have hdiv : n / 2 ≤ fuel := by omega
      have hpos : 0 < n / 2 := by omega
      obtain ⟨ih1, ih2⟩ := ih (n / 2) hpos hdiv
      rw [pow_succ] at ih2
      constructor
      · rw [pow_succ]; omega
      · rw [pow_succ, pow_succ]; omega

theorem log2_spec (n : Nat) (hn : 0 < n) : 2 ^ log2 n ≤ n ∧ n < 2 ^ (log2 n + 1) :=
  log2Fuel_spec n n hn (Nat.le_refl n)

theorem two_zpow_toNat (e : Int) (h : 0 ≤ e) : (2 : ℚ) ^ e = ((2 ^ e.toNat : Nat) : ℚ) := by
  lift e to Nat using h
  simp

theorem two_zpow_neg_toNat (e : Int) (h : e ≤ 0) :
    (2 : ℚ) ^ e = (((2 ^ (-e).toNat : Nat) : ℚ))⁻¹ := by
  have h' : (2 : ℚ) ^ e = ((2 : ℚ) ^ (-e))⁻¹ := by rw [zpow_neg, inv_inv]
  rw [h', two_zpow_toNat (-e) (by omega)]

theorem pow2Le_iff (e : Int) (n d : Nat) (hd : 0 < d) :
    pow2Le e n d = true ↔ (2 : ℚ) ^ e ≤ (n : ℚ) / d := by
  have hdq : (0 : ℚ) < d := by exact_mod_cast hd
  unfold pow2Le
  by_cases he : 0 ≤ e
  · simp only [he, if_true, decide_eq_true_eq]
    rw [two_zpow_toNat e he, le_div_iff₀ hdq]
    constructor
    · intro h
      have : ((d * 2 ^ e.toNat : Nat) : ℚ) ≤ (n : ℚ) := by exact_mod_cast h
      push_cast at this ⊢
      linarith
    · intro h
      have : ((2 ^ e.toNat * d : Nat) : ℚ) ≤ (n : ℚ) := by push_cast; push_cast at h; exact h
      have := Nat.cast_le.mp this
      rw [Nat.mul_comm]; exact this
  · simp only [he, if_false, decide_eq_true_eq]
    have hp : (0 : ℚ) < ((2 ^ (-e).toNat : Nat) : ℚ) := by positivity
    rw [two_zpow_neg_toNat e (by omega), le_div_iff₀ hdq, inv_mul_le_iff₀ hp]
    constructor
    · intro h
      have : ((d : Nat) : ℚ) ≤ ((n * 2 ^ (-e).toNat : Nat) : ℚ) := by exact_mod_cast h
      push_cast at this ⊢
      linarith
    · intro h
      have : ((d : Nat) : ℚ) ≤ ((2 ^ (-e).toNat * n : Nat) : ℚ) := by push_cast; push_cast at h; exact h
      have := Nat.cast_le.mp this
      rw [Nat.mul_comm]; exact this

theorem floorLog2_lt (n d : Nat) (hn : 0 < n) (hd : 0 < d) (k : Int)
    (h : (n : ℚ) / d < 2 ^ k) : floorLog2 n d < k := by
  have hdq : (0 : ℚ) < d := by exact_mod_cast hd
  unfold floorLog2
  simp only
  by_cases hp : pow2Le ((log2 n : Int) - (log2 d : Int)) n d = true
  · simp only [hp, if_true]
    have := (pow2Le_iff _ n d hd).mp hp
    exact (zpow_lt_zpow_iff_right₀ (by norm_num)).mp (lt_of_le_of_lt this h)
  · simp only [hp]
    -- 2^(a-b-1) < n/d
    obtain ⟨ha, _⟩ := log2_spec n hn
    obtain ⟨_, hb⟩ := log2_spec d hd
    have haq : ((2 : ℚ) ^ (log2 n : Int)) ≤ n := by
      rw [zpow_natCast]; exact_mod_cast ha
    have hbq : (d : ℚ) < (2 : ℚ) ^ ((log2 d : Int) + 1) := by
      have : (d : ℚ) < ((2 ^ (log2 d + 1) : Nat) : ℚ) := by exact_mod_cast hb
      rw [show ((log2 d : Int) + 1) = ((log2 d + 1 : Nat) : Int) by push_cast; ring, zpow_natCast]
      exact_mod_cast this
    have hlt : (2 : ℚ) ^ ((log2 n : Int) - (log2 d : Int) - 1) < (n : ℚ) / d := by
      rw [lt_div_iff₀ hdq]
      have hpos : (0 : ℚ) < 2 ^ ((log2 n : Int) - (log2 d : Int) - 1) := by positivity
      calc (2 : ℚ) ^ ((log2 n : Int) - (log2 d : Int) - 1) * d
          < 2 ^ ((log2 n : Int) - (log2 d : Int) - 1) * 2 ^ ((log2 d : Int) + 1) :=
            mul_lt_mul_of_pos_left hbq hpos
        _ = 2 ^ (log2 n : Int) := by
            rw [← zpow_add₀ (by norm_num : (2 : ℚ) ≠ 0)]; congr 1; ring
        _ ≤ n := haq
    have := (zpow_lt_zpow_iff_right₀ (by norm_num : (1 : ℚ) < 2)).mp (lt_trans hlt h)
    simp only [Bool.false_eq_true, if_false]
    omega

theorem divRoundEven_spec (N D : Nat) (hD : 0 < D) :
    |(divRoundEven N D : ℚ) - (N : ℚ) / D| ≤ 1 / 2 := by
  have hDq : (0 : ℚ) < D := by exact_mod_cast hD
  have hsplit : (N : ℚ) / D = ((N / D : Nat) : ℚ) + ((N % D : Nat) : ℚ) / D := by
    have := Nat.div_add_mod N D
    have h2 : (N : ℚ) = (D : ℚ) * ((N / D : Nat) : ℚ) + ((N % D : Nat) : ℚ) := by
      exact_mod_cast this.symm
    field_simp
    linarith
  have hr : N % D < D := Nat.mod_lt N hD
  have hrq : ((N % D : Nat) : ℚ) < D := by exact_mod_cast hr
  have hr0 : (0 : ℚ) ≤ ((N % D : Nat) : ℚ) := by positivity
  rw [hsplit, abs_le]
  unfold divRoundEven
  simp only
  by_cases h1 : 2 * (N % D) < D
  · simp only [h1, if_true]
    have h1q : 2 * ((N % D : Nat) : ℚ) < D := by exact_mod_cast h1
    have : ((N % D : Nat) : ℚ) / D < 1 / 2 := by rw [div_lt_iff₀ hDq]; linarith
    have h0 : 0 ≤ ((N % D : Nat) : ℚ) / D := by positivity
    constructor <;> linarith
  · simp only [h1, if_false]
    have hge : (D : ℚ) ≤ 2 * ((N % D : Nat) : ℚ) := by
      have : D ≤ 2 * (N % D) := by omega
      exact_mod_cast this
    have hhalf : 1 / 2 ≤ ((N % D : Nat) : ℚ) / D := by rw [le_div_iff₀ hDq]; linarith
    have hlt1 : ((N % D : Nat) : ℚ) / D < 1 := by rw [div_lt_iff₀ hDq]; linarith
    by_cases h2 : D < 2 * (N % D)
    · simp only [h2, if_true]
      push_cast
      constructor <;> linarith
    · simp only [h2, if_false]
      have heq : 2 * (N % D) = D := by omega
      have heqq : 2 * ((N % D : Nat) : ℚ) = D := by exact_mod_cast heq
      have hval : ((N % D : Nat) : ℚ) / D = 1 / 2 := by rw [div_eq_iff hDq.ne']; linarith
      split
      · constructor <;> linarith
      · push_cast
        constructor <;> linarith

theorem roundAt_spec (neg : Bool) (n d : Nat) (hd : 0 < d) (ulp : Int) (hulp : ulp ≤ 970) :
    ∃ m x, roundAt neg n d ulp = .fin neg m x ∧
      |(m : ℚ) * 2 ^ x - (n : ℚ) / d| ≤ 2 ^ (ulp - 1) := by
  have hdq : (0 : ℚ) < d := by exact_mod_cast hd
  have h2 : (2 : ℚ) ≠ 0 := by norm_num
  -- the scaled fraction
  obtain ⟨num, den, hnum, hden, hdpos, hfrac⟩ :
      ∃ num den : Nat, num = (if ulp ≤ 0 then n * 2 ^ (-ulp).toNat else n) ∧
        den = (if ulp ≤ 0 then d else d * 2 ^ ulp.toNat) ∧ 0 < den ∧
        (num : ℚ) / den = (n : ℚ) / d * ((2 : ℚ) ^ ulp)⁻¹ := by
    refine ⟨_, _, rfl, rfl, ?_, ?_⟩
    · split
      · exact hd
      · positivity
    · by_cases hu : ulp ≤ 0
      · simp only [hu, if_true]
        rw [two_zpow_neg_toNat ulp hu, inv_inv]
        push_cast
        field_simp
      · simp only [hu, if_false]
        rw [two_zpow_toNat ulp (by omega)]
        push_cast
        field_simp
  have hq := divRoundEven_spec num den hdpos
  have hpos : (0 : ℚ) < 2 ^ ulp := by positivity
  have herr : |(divRoundEven num den : ℚ) * 2 ^ ulp - (n : ℚ) / d| ≤ 2 ^ (ulp - 1) := by
    have hnd : (n : ℚ) / d = (num : ℚ) / den * 2 ^ ulp := by
      rw [hfrac]; field_simp; ring
    rw [hnd, ← sub_mul, abs_mul, abs_of_pos hpos]
    have : (2 : ℚ) ^ (ulp - 1) = 1 / 2 * 2 ^ ulp := by
      rw [zpow_sub₀ h2, zpow_one]; ring
    rw [this]
    exact mul_le_mul_of_nonneg_right hq hpos.le
  unfold roundAt
  simp only [← hnum, ← hden]
  by_cases hc : divRoundEven num den = 2 ^ 53
  · simp only [hc, if_true]
    have hx : ¬ (971 < ulp + 1) := by omega
    refine ⟨2 ^ 52, ulp + 1, by simp only [hx, if_false], ?_⟩
    have hval : ((2 ^ 52 : Nat) : ℚ) * 2 ^ (ulp + 1) = ((2 ^ 53 : Nat) : ℚ) * 2 ^ ulp := by
      rw [zpow_add₀ h2, zpow_one]; push_cast; ring
    rw [hval, ← hc]
    exact herr
  · simp only [hc, if_false]
    have hx : ¬ (971 < ulp) := by omega
    exact ⟨divRoundEven num den, ulp, by simp only [hx, if_false], herr⟩

theorem round_spec (neg : Bool) (n d : Nat) (hd : 0 < d) (k : Int) (hk1 : -1021 ≤ k)
    (hk2 : k ≤ 1023) (h : (n : ℚ) / d < 2 ^ k) :
    ∃ m x, round neg n d = .fin neg m x ∧
      |(m : ℚ) * 2 ^ x - (n : ℚ) / d| ≤ 2 ^ (k - 54) := by
  by_cases hn : n = 0
  · subst hn
    refine ⟨0, -1074, by simp [round], ?_⟩
    simp only [Nat.cast_zero, zero_mul, zero_div, sub_zero, abs_zero]
    positivity
  · have hnpos : 0 < n := Nat.pos_of_ne_zero hn
    have he := floorLog2_lt n d hnpos hd k h
    have hulp : max (floorLog2 n d) (-1022) - 52 ≤ k - 53 := by
      have : max (floorLog2 n d) (-1022) ≤ k - 1 := max_le (by omega) (by omega)
      omega
    obtain ⟨m, x, hr, herr⟩ := roundAt_spec neg n d hd _ (by omega : max (floorLog2 n d) (-1022) - 52 ≤ 970)
    refine ⟨m, x, by simp only [round, hn, if_false]; exact hr, le_trans herr ?_⟩
    exact (zpow_le_zpow_iff_right₀ (by norm_num : (1 : ℚ) < 2)).mpr (by omega)

theorem roundScaled_spec (neg : Bool) (n d : Nat) (e : Int) (hd : 0 < d) (k : Int)
    (hk1 : -1021 ≤ k) (hk2 : k ≤ 1023) (h : (n : ℚ) / d * 2 ^ e < 2 ^ k) :
    ∃ m x, roundScaled neg n d e = .fin neg m x ∧
      |(m : ℚ) * 2 ^ x - (n : ℚ) / d * 2 ^ e| ≤ 2 ^ (k - 54) := by
  have hdq : (0 : ℚ) < d := by exact_mod_cast hd
  unfold roundScaled
  by_cases he : 0 ≤ e
  · simp only [he, if_true]
    have hfrac : ((n * 2 ^ e.toNat : Nat) : ℚ) / d = (n : ℚ) / d * 2 ^ e := by
      rw [two_zpow_toNat e he]; push_cast; ring
    have := round_spec neg (n * 2 ^ e.toNat) d hd k hk1 hk2 (by rw [hfrac]; exact h)
    rw [hfrac] at this
    exact this
  · simp only [he, if_false]
    have hpos : 0 < d * 2 ^ (-e).toNat := by positivity
    have hfrac : (n : ℚ) / ((d * 2 ^ (-e).toNat : Nat) : ℚ) = (n : ℚ) / d * 2 ^ e := by
      rw [two_zpow_neg_toNat e (by omega)]; push_cast; field_simp
    have := round_spec neg n (d * 2 ^ (-e).toNat) hpos k hk1 hk2 (by rw [hfrac]; exact h)
    rw [hfrac] at this
    exact this

theorem toRat_fin (neg : Bool) (m : Nat) (x : Int) :
    toRat (.fin neg m x) = (if neg then -1 else 1) * (m : ℚ) * 2 ^ x := rfl

theorem sign_xor (a b : Bool) :
    (if xor a b then (-1 : ℚ) else 1) = (if a then -1 else 1) * (if b then -1 else 1) := by
  cases a <;> cases b <;> simp

theorem abs_sign_mul (neg : Bool) (p q : ℚ) :
    |(if neg then (-1 : ℚ) else 1) * p - (if neg then (-1 : ℚ) else 1) * q| = |p - q| := by
  cases neg
  · simp
  · simp only [if_true, neg_mul, one_mul]
    rw [← abs_neg]; congr 1; ring

theorem abs_sign (neg : Bool) (p : ℚ) : |(if neg then (-1 : ℚ) else 1) * p| = |p| := by
  cases neg <;> simp

theorem mul_spec (x y : Float64) (hx : x.isFinite = true) (hy : y.isFinite = true) (k : Int)
    (hk1 : -1021 ≤ k) (hk2 : k ≤ 1023) (h : |x.toRat * y.toRat| < 2 ^ k) :
    (x.mul y).isFinite = true ∧ |(x.mul y).toRat - x.toRat * y.toRat| ≤ 2 ^ (k - 54) := by
  match x, y, hx, hy with
  | .fin a ma ea, .fin b mb eb, _, _ =>
    have hexact : (Float64.fin a ma ea).toRat * (Float64.fin b mb eb).toRat =
        (if xor a b then (-1 : ℚ) else 1) * (((ma * mb : Nat) : ℚ) / (1 : Nat) * 2 ^ (ea + eb)) := by
      rw [toRat_fin, toRat_fin, sign_xor, zpow_add₀ (by norm_num : (2 : ℚ) ≠ 0)]
      push_cast; ring
    rw [hexact, abs_sign] at h
    have hnn : (0 : ℚ) ≤ ((ma * mb : Nat) : ℚ) / (1 : Nat) * 2 ^ (ea + eb) := by positivity
    rw [abs_of_nonneg hnn] at h
    obtain ⟨m, e, hr, herr⟩ := roundScaled_spec (xor a b) (ma * mb) 1 (ea + eb) (by norm_num)
      k hk1 hk2 h
    have hm : (Float64.fin a ma ea).mul (.fin b mb eb) = .fin (xor a b) m e := by
      simp only [mul]; exact hr
    rw [hm, hexact, toRat_fin, mul_assoc, abs_sign_mul]
    exact ⟨rfl, herr⟩

theorem div_spec (x y : Float64) (hx : x.isFinite = true) (hy : y.isFinite = true)
    (hy0 : y.toRat ≠ 0) (k : Int)
    (hk1 : -1021 ≤ k) (hk2 : k ≤ 1023) (h : |x.toRat / y.toRat| < 2 ^ k) :
    (x.div y).isFinite = true ∧ |(x.div y).toRat - x.toRat / y.toRat| ≤ 2 ^ (k - 54) := by
  match x, y, hx, hy, hy0 with
  | .fin a ma ea, .fin b mb eb, _, _, hy0 =>
    have hmb : mb ≠ 0 := by
      intro h0; apply hy0; rw [toRat_fin, h0]; simp
    have hmbq : (mb : ℚ) ≠ 0 := by exact_mod_cast hmb
    have hexact : (Float64.fin a ma ea).toRat / (Float64.fin b mb eb).toRat =
        (if xor a b then (-1 : ℚ) else 1) * ((ma : ℚ) / mb * 2 ^ (ea - eb)) := by
      have hpe : (2 : ℚ) ^ eb ≠ 0 := by positivity
      rw [toRat_fin, toRat_fin, zpow_sub₀ (by norm_num : (2 : ℚ) ≠ 0)]
      cases a <;> cases b <;> simp <;> field_simp
    rw [hexact, abs_sign] at h
    have hnn : (0 : ℚ) ≤ (ma : ℚ) / mb * 2 ^ (ea - eb) := by positivity
    rw [abs_of_nonneg hnn] at h
    obtain ⟨m, e, hr, herr⟩ := roundScaled_spec (xor a b) ma mb (ea - eb)
      (Nat.pos_of_ne_zero hmb) k hk1 hk2 h
    have hm : (Float64.fin a ma ea).div (.fin b mb eb) = .fin (xor a b) m e := by
      simp only [div, hmb, if_false]; exact hr
    rw [hm, hexact, toRat_fin, mul_assoc, abs_sign_mul]
    exact ⟨rfl, herr⟩

theorem divRoundEven_one (N : Nat) : divRoundEven N 1 = N := by
  simp [divRoundEven, Nat.mod_one]

theorem roundAt_exact (neg : Bool) (n : Nat) (ulp : Int) (hulp : ulp ≤ 0) :
    ∃ m x, roundAt neg n 1 ulp = .fin neg m x ∧ (m : ℚ) * 2 ^ x = n := by
  have h2 : (2 : ℚ) ≠ 0 := by norm_num
  have hval : ((n * 2 ^ (-ulp).toNat : Nat) : ℚ) * 2 ^ ulp = n := by
    rw [two_zpow_neg_toNat ulp hulp]
    push_cast
    field_simp
  unfold roundAt
  simp only [hulp, if_true, divRoundEven_one]
  by_cases hc : n * 2 ^ (-ulp).toNat = 2 ^ 53
  · simp only [hc, if_true]
    have hx : ¬ (971 < ulp + 1) := by omega
    refine ⟨2 ^ 52, ulp + 1, by simp only [hx, if_false], ?_⟩
    rw [← hval, hc, zpow_add₀ h2, zpow_one]
    push_cast
    ring
  · simp only [hc, if_false]
    have hx : ¬ (971 < ulp) := by omega
    exact ⟨_, ulp, by simp only [hx, if_false], hval⟩

theorem sign_mul_natAbs (s : Int) :
    (if decide (s < 0) = true then (-1 : ℚ) else 1) * (s.natAbs : ℚ) = s := by
  have hcast : (s.natAbs : ℚ) = |(s : ℚ)| := by
    rw [Nat.cast_natAbs, Int.cast_abs]
  rw [hcast]
  by_cases hi : s < 0
  · have : (s : ℚ) < 0 := by exact_mod_cast hi
    simp only [hi, decide_True, if_true, abs_of_neg this]
    ring
  · have : (0 : ℚ) ≤ s := by exact_mod_cast (not_lt.mp hi)
    simp only [hi, decide_False, Bool.false_eq_true, if_false, one_mul, abs_of_nonneg this]

theorem ofInt_spec (i : Int) (h : i.natAbs < 2 ^ 53) :
    (ofInt i).isFinite = true ∧ (ofInt i).toRat = i := by
  have hsign := sign_mul_natAbs i
  unfold ofInt
  by_cases hn : i.natAbs = 0
  · have hi : i = 0 := Int.natAbs_eq_zero.mp hn
    subst hi
    simp [round, toRat, isFinite]
  · have hlog : floorLog2 i.natAbs 1 < 53 := by
      apply floorLog2_lt _ _ (Nat.pos_of_ne_zero hn) (by norm_num)
      have : ((i.natAbs : Nat) : ℚ) < ((2 ^ 53 : Nat) : ℚ) := by exact_mod_cast h
      rw [Nat.cast_one, div_one]
      calc ((i.natAbs : Nat) : ℚ) < ((2 ^ 53 : Nat) : ℚ) := this
        _ = 2 ^ (53 : Int) := by norm_num
    have hulp : max (floorLog2 i.natAbs 1) (-1022) - 52 ≤ 0 := by
      have : max (floorLog2 i.natAbs 1) (-1022) ≤ 52 := max_le (by omega) (by omega)
      omega
    obtain ⟨m, x, hr, hv⟩ := roundAt_exact (decide (i < 0)) i.natAbs _ hulp
    simp only [round, hn, if_false, hr]
    refine ⟨rfl, ?_⟩
    rw [toRat_fin, mul_assoc, hv, hsign]

theorem add_spec (x y : Float64) (hx : x.isFinite = true) (hy : y.isFinite = true) (k : Int)
    (hk1 : -1021 ≤ k) (hk2 : k ≤ 1023) (h : |x.toRat + y.toRat| < 2 ^ k) :
    (x.add y).isFinite = true ∧ |(x.add y).toRat - (x.toRat + y.toRat)| ≤ 2 ^ (k - 54) := by
  match x, y, hx, hy with
  | .fin a ma ea, .fin b mb eb, _, _ =>
    have h2 : (2 : ℚ) ≠ 0 := by norm_num
    have hshift : ∀ (m : Nat) (e1 e : Int), e ≤ e1 →
        (((m * 2 ^ (e1 - e).toNat : Nat) : Int) : ℚ) * 2 ^ e = (m : ℚ) * 2 ^ e1 := by
      intro m e1 e hle
      have : (2 : ℚ) ^ e1 = 2 ^ (e1 - e) * 2 ^ e := by
        rw [← zpow_add₀ h2]; congr 1; ring
      rw [this, two_zpow_toNat (e1 - e) (by omega)]
      push_cast
      ring
    have hexact : (Float64.fin a ma ea).toRat + (Float64.fin b mb eb).toRat =
        ((((if a then -1 else 1) * ((ma * 2 ^ (ea - min ea eb).toNat : Nat) : Int) +
          (if b then -1 else 1) * ((mb * 2 ^ (eb - min ea eb).toNat : Nat) : Int) : Int)) : ℚ) *
          2 ^ (min ea eb) := by
      rw [toRat_fin, toRat_fin]
      push_cast
      rw [add_mul]
      have e1 := hshift ma ea (min ea eb) (min_le_left _ _)
      have e2 := hshift mb eb (min ea eb) (min_le_right _ _)
      push_cast at e1 e2
      cases a <;> cases b <;> simp <;> rw [← e1, ← e2]
    generalize hs : ((if a then -1 else 1) * ((ma * 2 ^ (ea - min ea eb).toNat : Nat) : Int) +
          (if b then -1 else 1) * ((mb * 2 ^ (eb - min ea eb).toNat : Nat) : Int) : Int) = s
      at hexact
    have hadd : (Float64.fin a ma ea).add (.fin b mb eb) =
        if s = 0 then .fin (a && b) 0 (-1074)
        else roundScaled (decide (s < 0)) s.natAbs 1 (min ea eb) := by
      simp only [add, hs]
    rw [hadd, hexact]
    rw [hexact] at h
    by_cases hs0 : s = 0
    · simp only [hs0, if_true, isFinite, toRat]
      refine ⟨trivial, ?_⟩
      simp only [Nat.cast_zero, mul_zero, zero_mul, Int.cast_zero, sub_zero, abs_zero]
      positivity
    · simp only [hs0, if_false]
      have hsabs := (sign_mul_natAbs s).symm
      have hq : (s : ℚ) * 2 ^ (min ea eb) =
          (if decide (s < 0) = true then (-1 : ℚ) else 1) *
            ((s.natAbs : ℚ) / (1 : Nat) * 2 ^ (min ea eb)) := by
        rw [hsabs]; push_cast; ring
      rw [hq, abs_sign] at h
      have hnn : (0 : ℚ) ≤ (s.natAbs : ℚ) / (1 : Nat) * 2 ^ (min ea eb) := by positivity
      rw [abs_of_nonneg hnn] at h
      obtain ⟨m, e, hr, herr⟩ := roundScaled_spec (decide (s < 0)) s.natAbs 1 (min ea eb)
        (by norm_num) k hk1 hk2 h
      rw [hr, hq, toRat_fin, mul_assoc, abs_sign_mul]
      exact ⟨rfl, herr⟩

end Float64

/-! ## float64 rounding: the results are in normal form -/

namespace Float64

theorem floorLog2_spec (n d : Nat) (hn : 0 < n) (hd : 0 < d) :
    (2 : ℚ) ^ floorLog2 n d ≤ (n : ℚ) / d ∧ (n : ℚ) / d < 2 ^ (floorLog2 n d + 1) := by
  have hdq : (0 : ℚ) < d := by exact_mod_cast hd
  have h2 : (2 : ℚ) ≠ 0 := by norm_num
  obtain ⟨ha1, ha2⟩ := log2_spec n hn
  obtain ⟨hb1, hb2⟩ := log2_spec d hd
  have ha1q : ((2 : ℚ) ^ (log2 n : Int)) ≤ n := by
    rw [zpow_natCast]; exact_mod_cast ha1
  have ha2q : (n : ℚ) < (2 : ℚ) ^ ((log2 n : Int) + 1) := by
    have : (n : ℚ) < ((2 ^ (log2 n + 1) : Nat) : ℚ) := by exact_mod_cast ha2
    rw [show ((log2 n : Int) + 1) = ((log2 n + 1 : Nat) : Int) by push_cast; ring, zpow_natCast]
    exact_mod_cast this
  have hb1q : ((2 : ℚ) ^ (log2 d : Int)) ≤ d := by
    rw [zpow_natCast]; exact_mod_cast hb1
  have hb2q : (d : ℚ) < (2 : ℚ) ^ ((log2 d : Int) + 1) := by
    have : (d : ℚ) < ((2 ^ (log2 d + 1) : Nat) : ℚ) := by exact_mod_cast hb2
    rw [show ((log2 d : Int) + 1) = ((log2 d + 1 : Nat) : Int) by push_cast; ring, zpow_natCast]
    exact_mod_cast this
  unfold floorLog2
  simp only
  by_cases hp : pow2Le ((log2 n : Int) - (log2 d : Int)) n d = true
  · simp only [hp, if_true]
    refine ⟨(pow2Le_iff _ n d hd).mp hp, ?_⟩
    rw [div_lt_iff₀ hdq]
    have hpos : (0 : ℚ) < 2 ^ ((log2 n : Int) - (log2 d : Int) + 1) := by positivity
    calc (n : ℚ) < 2 ^ ((log2 n : Int) + 1) := ha2q
      _ = 2 ^ ((log2 n : Int) - (log2 d : Int) + 1) * 2 ^ (log2 d : Int) := by
          rw [← zpow_add₀ h2]; congr 1; ring
      _ ≤ 2 ^ ((log2 n : Int) - (log2 d : Int) + 1) * d :=
          mul_le_mul_of_nonneg_left hb1q hpos.le
  · have hnot : ¬ (2 : ℚ) ^ ((log2 n : Int) - (log2 d : Int)) ≤ (n : ℚ) / d :=
      fun h => hp ((pow2Le_iff _ n d hd).mpr h)
    simp only [hp, Bool.false_eq_true, if_false, sub_add_cancel]
    refine ⟨?_, not_le.mp hnot⟩
    rw [le_div_iff₀ hdq]
    have hpos : (0 : ℚ) < 2 ^ ((log2 n : Int) - (log2 d : Int) - 1) := by positivity
    calc (2 : ℚ) ^ ((log2 n : Int) - (log2 d : Int) - 1) * d
        ≤ 2 ^ ((log2 n : Int) - (log2 d : Int) - 1) * 2 ^ ((log2 d : Int) + 1) :=
          mul_le_mul_of_nonneg_left hb2q.le hpos.le
      _ = 2 ^ (log2 n : Int) := by rw [← zpow_add₀ h2]; congr 1; ring
      _ ≤ n := ha1q

theorem divRoundEven_le (N D B : Nat) (hD : 0 < D) (h : N < B * D) : divRoundEven N D ≤ B := by
  have hq : N / D < B := (Nat.div_lt_iff_lt_mul hD).mpr h
  unfold divRoundEven
  simp only
  split
  · omega
  · split
    · omega
    · split <;> omega

theorem le_divRoundEven (N D B : Nat) (hD : 0 < D) (h : B * D ≤ N) : B ≤ divRoundEven N D := by
  have hq : B ≤ N / D := (Nat.le_div_iff_mul_le hD).mpr h
  unfold divRoundEven
  simp only
  split
  · omega
  · split
    · omega
    · split <;> omega

/-- The result of `round` is a float64 in the IEEE normal form. -/
theorem round_wellFormed (neg : Bool) (n d : Nat) (hd : 0 < d) :
    (round neg n d).WellFormed := by
  by_cases hn : n = 0
  · simp [round, hn, WellFormed]
  have hnpos : 0 < n := Nat.pos_of_ne_zero hn
  have hdq : (0 : ℚ) < d := by exact_mod_cast hd
  have h2 : (2 : ℚ) ≠ 0 := by norm_num
  obtain ⟨hlo, hhi⟩ := floorLog2_spec n d hnpos hd
  simp only [round, hn, if_false]
  generalize hE : max (floorLog2 n d) (-1022) = E
  have hE1 : floorLog2 n d ≤ E := by rw [← hE]; exact le_max_left _ _
  have hE2 : -1022 ≤ E := by rw [← hE]; exact le_max_right _ _
  have hE3 : E = floorLog2 n d ∨ E = -1022 := by
    rw [← hE]; rcases le_total (floorLog2 n d) (-1022) with h | h
    · right; exact max_eq_right h
    · left; exact max_eq_left h
  -- the scaled fraction num / den = n / d / 2 ^ (E - 52)
  obtain ⟨num, den, hnum, hden, hdpos, hfrac⟩ :
      ∃ num den : Nat, num = (if E - 52 ≤ 0 then n * 2 ^ (-(E - 52)).toNat else n) ∧
        den = (if E - 52 ≤ 0 then d else d * 2 ^ (E - 52).toNat) ∧ 0 < den ∧
        (num : ℚ) = (n : ℚ) / d * ((2 : ℚ) ^ (E - 52))⁻¹ * den := by
    refine ⟨_, _, rfl, rfl, ?_, ?_⟩
    · split
      · exact hd
      · positivity
    · by_cases hu : E - 52 ≤ 0
      · simp only [hu, if_true]
        rw [two_zpow_neg_toNat (E - 52) hu, inv_inv]
        push_cast
        field_simp
      · simp only [hu, if_false]
        rw [two_zpow_toNat (E - 52) (by omega)]
        push_cast
        field_simp
  have hdenq : (0 : ℚ) < den := by exact_mod_cast hdpos
  have hupper : num < 2 ^ 53 * den := by
    have : (num : ℚ) < ((2 ^ 53 * den : Nat) : ℚ) := by
      rw [hfrac]
      push_cast
      apply mul_lt_mul_of_pos_right _ hdenq
      have hpos : (0 : ℚ) < 2 ^ (E - 52) := by positivity
      rw [← div_eq_mul_inv, div_lt_iff₀ hpos]
      calc (n : ℚ) / d < 2 ^ (floorLog2 n d + 1) := hhi
        _ ≤ 2 ^ (E + 1) := (zpow_le_zpow_iff_right₀ (by norm_num)).mpr (by omega)
        _ = 2 ^ (53 : Nat) * 2 ^ (E - 52) := by
            rw [← zpow_natCast, ← zpow_add₀ h2]; congr 1; push_cast; ring
    exact_mod_cast this
  have hlower : E = floorLog2 n d → 2 ^ 52 * den ≤ num := by
    intro hEe
    have : ((2 ^ 52 * den : Nat) : ℚ) ≤ (num : ℚ) := by
      rw [hfrac]
      push_cast
      apply mul_le_mul_of_nonneg_right _ hdenq.le
      have hpos : (0 : ℚ) < 2 ^ (E - 52) := by positivity
      rw [← div_eq_mul_inv, le_div_iff₀ hpos]
      calc (2 : ℚ) ^ (52 : Nat) * 2 ^ (E - 52) = 2 ^ E := by
            rw [← zpow_natCast, ← zpow_add₀ h2]; congr 1; push_cast; ring
        _ = 2 ^ floorLog2 n d := by rw [hEe]
        _ ≤ (n : ℚ) / d := hlo
    exact_mod_cast this
  have hq1 := divRoundEven_le num den (2 ^ 53) hdpos hupper
  unfold roundAt
  simp only [← hnum, ← hden]
  by_cases hc : divRoundEven num den = 2 ^ 53
  · simp only [hc, if_true]
    split
    · trivial
    · simp only [WellFormed]
      refine ⟨by norm_num, by omega, by omega, Or.inl (le_refl _)⟩
  · simp only [hc, if_false]
    split
    · trivial
    · simp only [WellFormed]
      refine ⟨lt_of_le_of_ne hq1 hc, by omega, by omega, ?_⟩
      rcases hE3 with h | h
      · exact Or.inl (le_divRoundEven num den (2 ^ 52) hdpos (hlower h))
      · right; omega

theorem roundScaled_wellFormed (neg : Bool) (n d : Nat) (e : Int) (hd : 0 < d) :
    (roundScaled neg n d e).WellFormed := by
  unfold roundScaled
  split
  · exact round_wellFormed neg _ d hd
  · exact round_wellFormed neg n _ (by positivity)

theorem zero_wellFormed (neg : Bool) : (Float64.fin neg 0 (-1074)).WellFormed := by
  simp [WellFormed]

theorem ofInt_wellFormed (i : Int) : (ofInt i).WellFormed :=
  round_wellFormed _ _ 1 (by norm_num)

theorem mul_wellFormed (x y : Float64) : (x.mul y).WellFormed := by
  rcases x with ⟨a, ma, ea⟩ | a | _ <;> rcases y with ⟨b, mb, eb⟩ | b | _ <;>
    simp only [mul]
  all_goals first
    | trivial
    | exact roundScaled_wellFormed _ _ 1 _ (by norm_num)
    | (split <;> trivial)

theorem div_wellFormed (x y : Float64) : (x.div y).WellFormed := by
  rcases x with ⟨a, ma, ea⟩ | a | _ <;> rcases y with ⟨b, mb, eb⟩ | b | _ <;>
    simp only [div]
  all_goals first
    | trivial
    | exact zero_wellFormed _
    | skip
  by_cases hmb : mb = 0
  · simp only [hmb, if_true]
    split <;> trivial
  · simp only [hmb, if_false]
    exact roundScaled_wellFormed _ _ _ _ (Nat.pos_of_ne_zero hmb)

theorem add_wellFormed (x y : Float64) : (x.add y).WellFormed := by
  rcases x with ⟨a, ma, ea⟩ | a | _ <;> rcases y with ⟨b, mb, eb⟩ | b | _ <;>
    simp only [add]
  all_goals first
    | trivial
    | (split <;> trivial)
    | skip
  generalize ((if a = true then -1 else 1) * ((ma * 2 ^ (ea - min ea eb).toNat : Nat) : Int) +
    (if b = true then -1 else 1) * ((mb * 2 ^ (eb - min ea eb).toNat : Nat) : Int)) = s
  by_cases hs : s = 0
  · simp only [hs, if_true]
    exact zero_wellFormed _
  · simp only [hs, if_false]
    exact roundScaled_wellFormed _ _ 1 _ (by norm_num)

end Float64

/-! ## The temperature reading and its JSON body -/

/-- The two values `getTemperature` returns are float64 data in normal form. -/
theorem getTemperature_wellFormed (curTemp : Int) :
    (getTemperature curTemp).TempC.WellFormed ∧ (getTemperature curTemp).TempF.WellFormed :=
  ⟨Float64.div_wellFormed _ _, Float64.add_wellFormed _ _⟩

theorem encode_of_isFinite (x : Float64) (hx : x.isFinite = true) :
    ∃ c, Float64.encode x = some c := by
  match x, hx with
  | .fin neg mant exp, _ =>
    unfold Float64.encode
    simp only
    split
    · exact ⟨_, rfl⟩
    · split
      · exact ⟨_, rfl⟩
      · exact ⟨_, rfl⟩

theorem HTTPHandler_of_encode (curTemp : Int) (c f : List Char)
    (hc : Float64.encode (getTemperature curTemp).TempC = some c)
    (hf : Float64.encode (getTemperature curTemp).TempF = some f) :
    HTTPHandler curTemp =
      (200, String.mk ("\x7b\"tempC\":".data ++ c ++ ",\"tempF\":".data ++ f ++ "\x7d".data)) := by
  simp only [HTTPHandler, Marshal, hc, hf]

set_option maxRecDepth 100000 in
theorem HTTPHandler_23456 :
    HTTPHandler 23456 = (200, "\x7b\"tempC\":23.456,\"tempF\":74.2208\x7d") := by
  decide

theorem getTemperature_bounds (curTemp : Int) (hlo : -2147483648 ≤ curTemp)
    (hhi : curTemp ≤ 2147483647) :
    (getTemperature curTemp).TempC.isFinite = true ∧
      (getTemperature curTemp).TempF.isFinite = true ∧
      |(getTemperature curTemp).TempC.toRat - (curTemp : ℚ) / 1000| ≤ 1 / 1000000000 ∧
      |(getTemperature curTemp).TempF.toRat -
        ((getTemperature curTemp).TempC.toRat * 9 / 5 + 32)| ≤ 1 / 1000000000 := by
  have hq1 : (-2147483648 : ℚ) ≤ curTemp := by exact_mod_cast hlo
  have hq2 : (curTemp : ℚ) ≤ 2147483647 := by exact_mod_cast hhi
  have p22 : (2 : ℚ) ^ (22 : Int) = 4194304 := by norm_num
  have p25 : (2 : ℚ) ^ (25 : Int) = 33554432 := by norm_num
  have e32 : (2 : ℚ) ^ ((22 : Int) - 54) = 1 / 4294967296 := by norm_num
  have e29 : (2 : ℚ) ^ ((25 : Int) - 54) = 1 / 536870912 := by norm_num
  obtain ⟨f0, v0⟩ := Float64.ofInt_spec curTemp (by
    have : (2 : Nat) ^ 53 = 9007199254740992 := by norm_num
    omega)
  obtain ⟨f1000, v1000⟩ := Float64.ofInt_spec 1000 (by decide)
  obtain ⟨f9, v9⟩ := Float64.ofInt_spec 9 (by decide)
  obtain ⟨f5, v5⟩ := Float64.ofInt_spec 5 (by decide)
  obtain ⟨f32, v32⟩ := Float64.ofInt_spec 32 (by decide)
  push_cast at v1000 v9 v5 v32
  -- TempC
  obtain ⟨fC, eC⟩ := Float64.div_spec (Float64.ofInt curTemp) (Float64.ofInt 1000) f0 f1000
    (by rw [v1000]; norm_num) 22 (by norm_num) (by norm_num) (by
      rw [v0, v1000, p22, abs_lt]
      constructor
      · rw [lt_div_iff₀ (by norm_num)]; linarith
      · rw [div_lt_iff₀ (by norm_num)]; linarith)
  rw [v0, v1000, e32] at eC
  generalize hC : (Float64.ofInt curTemp).div (Float64.ofInt 1000) = C at fC eC
  have hCb := abs_le.mp eC
  have hC1 : -2147484 ≤ C.toRat := by
    have : (-2147483648 : ℚ) / 1000 ≤ (curTemp : ℚ) / 1000 :=
      div_le_div_of_nonneg_right hq1 (by norm_num)
    linarith [hCb.1]
  have hC2 : C.toRat ≤ 2147484 := by
    have : (curTemp : ℚ) / 1000 ≤ (2147483647 : ℚ) / 1000 :=
      div_le_div_of_nonneg_right hq2 (by norm_num)
    linarith [hCb.2]
  -- TempC * 9
  obtain ⟨fa, ea⟩ := Float64.mul_spec C (Float64.ofInt 9) fC f9 25 (by norm_num) (by norm_num)
    (by rw [v9, p25, abs_lt]; constructor <;> linarith)
  rw [v9, e29] at ea
  generalize ha : C.mul (Float64.ofInt 9) = a at fa ea
  have hab := abs_le.mp ea
  -- / 5
  obtain ⟨fb, eb⟩ := Float64.div_spec a (Float64.ofInt 5) fa f5 (by rw [v5]; norm_num) 22
    (by norm_num) (by norm_num) (by
      rw [v5, p22, abs_lt]
      constructor
      · rw [lt_div_iff₀ (by norm_num)]; linarith [hab.1]
      · rw [div_lt_iff₀ (by norm_num)]; linarith [hab.2])
  rw [v5, e32] at eb
  generalize hb : a.div (Float64.ofInt 5) = b at fb eb
  have hbb := abs_le.mp eb
  -- + 32
  obtain ⟨fF, eF⟩ := Float64.add_spec b (Float64.ofInt 32) fb f32 22 (by norm_num) (by norm_num)
    (by rw [v32, p22, abs_lt]; constructor <;> linarith [hab.1, hab.2, hbb.1, hbb.2])
  rw [v32, e32] at eF
  generalize hF : b.add (Float64.ofInt 32) = F at fF eF
  have hFb := abs_le.mp eF
  have hTC : (getTemperature curTemp).TempC = C := by simp only [getTemperature, hC]
  have hTF : (getTemperature curTemp).TempF = F := by simp only [getTemperature, hC, ha, hb, hF]
  rw [hTC, hTF]
  refine ⟨fC, fF, le_trans eC (by norm_num), ?_⟩
  rw [abs_le]
  constructor <;> linarith [hab.1, hab.2, hbb.1, hbb.2, hFb.1, hFb.2]

/-- C9: for every raw sensor value `curTemp` (an `int32`, millidegrees Celsius),
`getTemperature` returns `TempC = float64(curTemp) / 1000` and
`TempF = TempC * 9 / 5 + 32` in float64 arithmetic; both are finite, `TempC` is
within `10^-9` of `curTemp / 1000` and `TempF` within `10^-9` of
`TempC * 9 / 5 + 32` computed exactly; the handler answers `200` with a body that
lists `tempC` before `tempF`; and for `curTemp = 23456` the body is
`{"tempC":23.456,"tempF":74.2208}`. -/
theorem getTemperature_formula_and_body (curTemp : Int) (hlo : -2147483648 ≤ curTemp)
    (hhi : curTemp ≤ 2147483647) :
    (getTemperature curTemp).TempC = (Float64.ofInt curTemp).div (Float64.ofInt 1000) ∧
      (getTemperature curTemp).TempF =
        ((((getTemperature curTemp).TempC.mul (Float64.ofInt 9)).div (Float64.ofInt 5)).add
          (Float64.ofInt 32)) ∧
      |(getTemperature curTemp).TempC.toRat - (curTemp : ℚ) / 1000| ≤ 1 / 1000000000 ∧
      |(getTemperature curTemp).TempF.toRat -
        ((getTemperature curTemp).TempC.toRat * 9 / 5 + 32)| ≤ 1 / 1000000000 ∧
      (∃ c f, Float64.encode (getTemperature curTemp).TempC = some c ∧
        Float64.encode (getTemperature curTemp).TempF = some f ∧
        HTTPHandler curTemp =
          (200, String.mk ("\x7b\"tempC\":".data ++ c ++ ",\"tempF\":".data ++ f ++
            "\x7d".data))) ∧
      HTTPHandler 23456 = (200, "\x7b\"tempC\":23.456,\"tempF\":74.2208\x7d") := by
  obtain ⟨fC, fF, eC, eF⟩ := getTemperature_bounds curTemp hlo hhi
  obtain ⟨c, hc⟩ := encode_of_isFinite _ fC
  obtain ⟨f, hf⟩ := encode_of_isFinite _ fF
  exact ⟨rfl, rfl, eC, eF, ⟨c, f, hc, hf, HTTPHandler_of_encode curTemp c f hc hf⟩,
    HTTPHandler_23456⟩

/-- C9, at `curTemp = 23456`. -/
theorem getTemperature_formula_and_body_witness :
    (-2147483648 : Int) ≤ 23456 ∧ (23456 : Int) ≤ 2147483647 ∧
      HTTPHandler 23456 = (200, "\x7b\"tempC\":23.456,\"tempF\":74.2208\x7d") ∧
      |(getTemperature 23456).TempC.toRat - ((23456 : Int) : ℚ) / 1000| ≤ 1 / 1000000000 :=
  ⟨by decide, by decide,
    (getTemperature_formula_and_body 23456 (by decide) (by decide)).2.2.2.2.2,
    (getTemperature_formula_and_body 23456 (by decide) (by decide)).2.2.1⟩

end PicoTempExport
